import Mathlib

/-!
Verification of the fire-signal notification router core.

Shallow embedding of the routing core of the fire-signal repository:
the URI decomposer (`src/core/UrlParser.ts`), the tag filter
(`src/config/tags.ts`), the placeholder substitutor and the dispatch
orchestrator with its fallback/error handler (`src/core/FireSignal.ts`),
and the message validator (`packages/core/src/utils/validation.ts`).

JavaScript strings are modelled as `List Char` (`JStr`).  The pieces of
the JavaScript runtime the source leans on (`String.prototype.trim`,
`split`, `parseInt`, `encodeURIComponent`, `decodeURIComponent`,
`URLSearchParams`, the WHATWG `URL` constructor) are modelled explicitly
below, each next to a comment stating the fragment of the runtime
behaviour covered.
-/

/-- JavaScript string, modelled as a list of characters. -/
abbrev JStr := List Char

/-- Convenience coercion from Lean string literals. -/
def jstr (s : String) : JStr := s.data

/-- Characters removed by `String.prototype.trim` (ASCII fragment of the
JS WhiteSpace/LineTerminator classes). -/
def isWsChar (c : Char) : Bool :=
  c.toNat = 32 || c.toNat = 9 || c.toNat = 10 || c.toNat = 13 ||
  c.toNat = 11 || c.toNat = 12

/-- Model of `String.prototype.trim`: drop whitespace from both ends. -/
def jsTrim (l : JStr) : JStr :=
  ((l.dropWhile isWsChar).reverse.dropWhile isWsChar).reverse

/-- ASCII lower-casing of one character (the fragment of
`String.prototype.toLowerCase` exercised by scheme and tag strings). -/
def asciiLowerChar (c : Char) : Char :=
  if 'A' ≤ c ∧ c ≤ 'Z' then Char.ofNat (c.toNat + 32) else c

/-- Model of `String.prototype.toLowerCase` (ASCII fragment). -/
def lowerStr (l : JStr) : JStr := l.map asciiLowerChar

/- ### Generic list/string lemmas used throughout -/

theorem dropWhile_sublist_self {α} (p : α → Bool) :
    ∀ l : List α, (l.dropWhile p).IsSuffix l := by
  intro l
  induction l with
  | nil => simp [List.dropWhile]
  | cons x xs ih =>
    by_cases h : p x
    · simpa [List.dropWhile_cons_of_pos h] using ih.trans (List.suffix_cons x xs)
    · simp [List.dropWhile_cons_of_neg h]

theorem dropWhile_idem {α} (p : α → Bool) (l : List α) :
    (l.dropWhile p).dropWhile p = l.dropWhile p := by
  induction l with
  | nil => simp
  | cons x xs ih =>
    by_cases h : p x
    · simpa [List.dropWhile_cons_of_pos h] using ih
    · simp [List.dropWhile_cons_of_neg h]

theorem dropWhile_eq_self_of_all {α} (p : α → Bool) (l : List α)
    (h : ∀ x ∈ l, p x = false) : l.dropWhile p = l := by
  cases l with
  | nil => simp
  | cons x xs =>
    have hx : ¬ p x := by simp [h x (List.mem_cons_self x xs)]
    simp [List.dropWhile_cons_of_neg hx]

theorem head_of_prefix {α} {z y : List α} (h : z.IsPrefix y) (hz : z ≠ []) :
    ∃ w, z.head? = some w ∧ y.head? = some w := by
  obtain ⟨t, rfl⟩ := h
  cases z with
  | nil => exact absurd rfl hz
  | cons a l => exact ⟨a, rfl, rfl⟩

theorem jsTrim_idem (l : JStr) : jsTrim (jsTrim l) = jsTrim l := by
  unfold jsTrim
  set y := l.dropWhile isWsChar with hy
  set z := (y.reverse.dropWhile isWsChar).reverse with hz
  have hzpre : z.IsPrefix y := by
    have hsuf : (y.reverse.dropWhile isWsChar).IsSuffix y.reverse :=
      dropWhile_sublist_self isWsChar y.reverse
    have := hsuf.reverse
    simpa [hz] using this
  have hstep : z.dropWhile isWsChar = z := by
    cases hzn : z with
    | nil => simp
    | cons a zs =>
      obtain ⟨w, hw1, hw2⟩ := head_of_prefix hzpre (by simp [hzn])
      have hyn : y ≠ [] := by
        intro hcon
        rw [hcon] at hw2; simp at hw2
      have hwnot : isWsChar w = false := by
        have h1 := List.head?_dropWhile_not isWsChar l
        rw [← hy] at h1
        cases hy2 : y.head? with
        | none => rw [hy2] at hw2; simp at hw2
        | some b =>
          rw [hy2] at hw2
          have hb : b = w := by simpa using hw2
          rw [hy2] at h1
          simpa [hb] using h1
      have ha : a = w := by
        rw [hzn] at hw1; simpa using hw1
      rw [hzn] at *
      have : ¬ isWsChar a := by simp [ha, hwnot]
      simp [List.dropWhile_cons_of_neg this]
  rw [hstep]
  have : z.reverse.dropWhile isWsChar = z.reverse := by
    rw [hz]
    simp only [List.reverse_reverse]
    exact dropWhile_idem isWsChar y.reverse
  rw [this, hz, List.reverse_reverse]

theorem jsTrim_eq_self_of_no_ws (l : JStr) (h : ∀ c ∈ l, isWsChar c = false) :
    jsTrim l = l := by
  unfold jsTrim
  rw [dropWhile_eq_self_of_all _ _ h]
  rw [dropWhile_eq_self_of_all _ _ (by intro c hc; exact h c (List.mem_reverse.mp hc))]
  simp

/- ### Destination store entries and the tag filter

Source: `src/config/tags.ts` (provided as `src/unnamed/part_010`). -/

/-- A URL entry with tags (`TaggedUrl` in `src/config/tags.ts`). -/
structure TaggedUrl where
  url : JStr
  tags : List JStr
deriving DecidableEq, Repr

/-- Model of `filterByTags(entries, filterTags)`.

Source: if no filter tags are given (or the list is empty) every URL is
returned; otherwise the filter tags are lower-cased into a set and an
entry matches when it has at least one tag whose lower-casing is in the
set.  The JS `Set` is modelled as the lower-cased list with `contains`
membership, which has the same membership semantics. -/
def filterByTags (entries : List TaggedUrl) (filterTags : Option (List JStr)) :
    List JStr :=
  match filterTags with
  | none => entries.map (·.url)
  | some fts =>
    if fts.isEmpty then entries.map (·.url)
    else
      let filterSet := fts.map lowerStr
      (entries.filter (fun e =>
        if e.tags.isEmpty then false
        else e.tags.any (fun t => filterSet.contains (lowerStr t)))).map (·.url)

theorem list_any_congr {α} {p q : α → Bool} (l : List α)
    (h : ∀ x ∈ l, p x = q x) : l.any p = l.any q := by
  induction l with
  | nil => rfl
  | cons a l ih =>
    simp only [List.any_cons, h a (List.mem_cons_self a l)]
    rw [ih (fun x hx => h x (List.mem_cons_of_mem a hx))]

theorem contains_map_lower (fts : List JStr) (x : JStr) :
    (fts.map lowerStr).contains x = fts.any (fun f => decide (x = lowerStr f)) := by
  induction fts with
  | nil => simp
  | cons f rest ih =>
    simp only [List.map_cons, List.contains_cons, List.any_cons, ih]
    by_cases h : x = lowerStr f
    · simp [h]
    · have hb : (x == lowerStr f) = false := by
        rw [beq_eq_false_iff_ne]; exact h
      simp [hb, h]

/-- C8: with an absent or empty filter every entry's URL is returned in
original order; with a non-empty filter exactly the URLs of entries whose
tag set case-insensitively intersects the filter are returned, in original
order, and an entry with an empty tag list never matches (its existential
tag intersection is empty). -/
theorem filterByTags_spec :
    (∀ entries, filterByTags entries none = entries.map (·.url)) ∧
    (∀ entries, filterByTags entries (some []) = entries.map (·.url)) ∧
    (∀ entries fts, fts ≠ [] →
      filterByTags entries (some fts) =
        (entries.filter (fun e =>
          e.tags.any (fun t => fts.any (fun f => lowerStr t = lowerStr f)))).map (·.url)) := by
  refine ⟨fun entries => rfl, fun entries => rfl, fun entries fts hne => ?_⟩
  have hfe : fts.isEmpty = false := by
    cases fts with
    | nil => exact absurd rfl hne
    | cons a l => rfl
  simp only [filterByTags, hfe]
  rw [if_neg (by simp)]
  congr 1
  apply List.filter_congr
  intro e _
  cases htags : e.tags with
  | nil => simp [htags]
  | cons t ts =>
    rw [if_neg (by simp)]
    apply list_any_congr
    intro a _
    rw [contains_map_lower]

/-- C8 witness: concrete instantiation of the non-empty-filter case. -/
theorem filterByTags_spec_witness :
    ([jstr "home"] ≠ ([] : List JStr)) ∧
    filterByTags [⟨jstr "a://x", [jstr "Home"]⟩, ⟨jstr "b://y", []⟩]
        (some [jstr "home"]) =
      ([(⟨jstr "a://x", [jstr "Home"]⟩ : TaggedUrl),
        ⟨jstr "b://y", []⟩].filter (fun e =>
          e.tags.any (fun t =>
            [jstr "home"].any (fun f => lowerStr t = lowerStr f)))).map (·.url) :=
  ⟨by decide,
   filterByTags_spec.2.2 [⟨jstr "a://x", [jstr "Home"]⟩, ⟨jstr "b://y", []⟩]
     [jstr "home"] (by decide)⟩

/- ### JavaScript error values

Taxonomy from `src/core/errors.ts` plus the runtime `URIError` thrown by
`decodeURIComponent` and the plain `Error` used for generic wrapping.
Only the data observed by the claims (constructor identity, message, the
schema carried by `FSProviderNotFoundError`) is modelled. -/

inductive JsError where
  /-- `FSParseError(message, url)` from `src/core/errors.ts`. -/
  | parseError (msg : JStr) (url : JStr)
  /-- `FSProviderNotFoundError(schema)` from `src/core/errors.ts`. -/
  | providerNotFound (schema : JStr)
  /-- The runtime `URIError` thrown by `decodeURIComponent`. -/
  | uriError
  /-- A plain `new Error(message)`. -/
  | jsError (msg : JStr)
deriving DecidableEq, Repr

/-- Decidable equality for thrown-or-returned results, used to evaluate
the model at concrete inputs. -/
instance {α β} [DecidableEq α] [DecidableEq β] : DecidableEq (Except α β) := by
  intro a b
  cases a <;> cases b <;> first
    | (apply isFalse; intro h; exact Except.noConfusion h)
    | (rename_i x y
       exact if h : x = y then isTrue (by rw [h]) else
         isFalse (fun hc => h (by injection hc)))

/-- The `.message` property of the modelled error values
(`FSProviderNotFoundError` builds its message from the schema). -/
def JsError.message : JsError → JStr
  | .parseError m _ => m
  | .providerNotFound s => jstr "No provider found for schema: " ++ s
  | .uriError => jstr "URI malformed"
  | .jsError m => m

/- ### Percent-encoding (`encodeURIComponent`)

Characters left intact by `encodeURIComponent`:
ASCII alphanumerics and `- _ . ! ~ * ' ( )`.  Every other character is
UTF-8 encoded and each byte written as an upper-case `%XX` escape. -/

def isDigitChar (c : Char) : Bool := 48 ≤ c.toNat && c.toNat ≤ 57

def isAsciiAlpha (c : Char) : Bool :=
  (97 ≤ c.toNat && c.toNat ≤ 122) || (65 ≤ c.toNat && c.toNat ≤ 90)

def isUnreservedChar (c : Char) : Bool :=
  isAsciiAlpha c || isDigitChar c ||
  c = '-' || c = '_' || c = '.' || c = '!' || c = '~' || c = '*' ||
  c = '\'' || c = '(' || c = ')'

/-- Upper-case hexadecimal digit for a value below 16. -/
def hexDigitUpper (n : Nat) : Char :=
  if n < 10 then Char.ofNat (48 + n) else Char.ofNat (55 + n)

/-- One byte as an upper-case percent escape. -/
def percentByte (n : Nat) : JStr :=
  ['%', hexDigitUpper (n / 16 % 16), hexDigitUpper (n % 16)]

/-- UTF-8 bytes of one character, each percent-escaped. -/
def percentEncodeChar (c : Char) : JStr :=
  let n := c.toNat
  if n < 0x80 then percentByte n
  else if n < 0x800 then
    percentByte (0xC0 + n / 64) ++ percentByte (0x80 + n % 64)
  else if n < 0x10000 then
    percentByte (0xE0 + n / 4096) ++ percentByte (0x80 + n / 64 % 64) ++
      percentByte (0x80 + n % 64)
  else
    percentByte (0xF0 + n / 262144) ++ percentByte (0x80 + n / 4096 % 64) ++
      percentByte (0x80 + n / 64 % 64) ++ percentByte (0x80 + n % 64)

/-- Model of `encodeURIComponent`. -/
def encodeURIComponent : JStr → JStr
  | [] => []
  | c :: cs =>
    (if isUnreservedChar c then [c] else percentEncodeChar c) ++
      encodeURIComponent cs

/- ### Placeholder substitution

Source: `replacePlaceholders` in `src/core/FireSignal.ts` (lines 99-110):
`url.replace(/\{([^}]+)\}/g, (_, key) => { const value = params[key];
if (value === undefined) throw new Error(...); return
encodeURIComponent(value); })`.

The `Record<string, string>` of parameters is modelled as an association
list looked up on the first matching key. -/

/-- First-match association-list lookup, modelling a JS object index. -/
def lookupStr (params : List (JStr × JStr)) (k : JStr) : Option JStr :=
  match params with
  | [] => none
  | (k', v) :: rest => if k' = k then some v else lookupStr rest k

/-- Split at the first `}`: `findCloseBrace l = some (before, after)`
when `l = before ++ '}' :: after` with `'}' ∉ before`. -/
def findCloseBrace : JStr → Option (JStr × JStr)
  | [] => none
  | c :: cs =>
    if c = '}' then some ([], cs)
    else (findCloseBrace cs).map (fun p => (c :: p.1, p.2))

/-- Fuelled scanner for the regex replace.  The regex `\{([^}]+)\}`
matches a `{`, at least one non-`}` character, then `}`; on a match the
callback output (the percent-encoded parameter value, or a thrown error
for a missing key) replaces the token and scanning resumes after the
`}`; `{` with no such match is kept literally.  Each step consumes at
least one character, so fuel `s.length` suffices. -/
def rpGo (params : List (JStr × JStr)) : Nat → JStr → Except JsError JStr
  | 0, s => .ok s
  | _ + 1, [] => .ok []
  | fuel + 1, '{' :: rest =>
    match findCloseBrace rest with
    | some (key, after) =>
      if key = [] then
        (rpGo params fuel rest).map (fun t => '{' :: t)
      else
        match lookupStr params key with
        | none =>
          .error (.jsError (jstr "Missing param '" ++ key ++
            jstr "' for URL placeholder"))
        | some v =>
          (rpGo params fuel after).map (fun t => encodeURIComponent v ++ t)
    | none => .ok ('{' :: rest)
  | fuel + 1, c :: rest => (rpGo params fuel rest).map (fun t => c :: t)

/-- Model of `replacePlaceholders(url, params)` (throwing errors are the
`Except.error` results). -/
def replacePlaceholders (url : JStr) (params : List (JStr × JStr)) :
    Except JsError JStr :=
  rpGo params url.length url

/- ### Destination store operations

Source: `FireSignal.add` (src/core/FireSignal.ts lines 179-187) and
`FireSignal.addFromConfig` (lines 189-193).  A JS `undefined` url is
modelled as `none`. -/

/-- One iteration of the `add` loop: `if (url?.trim())
{ this.entries.push({ url: url.trim(), tags }); }`. -/
def addOne (entries : List TaggedUrl) (url : Option JStr) (tags : List JStr) :
    List TaggedUrl :=
  match url with
  | none => entries
  | some u => if jsTrim u = [] then entries else entries ++ [⟨jsTrim u, tags⟩]

/-- Model of `add(urlOrUrls, tags)` for a list of URLs. -/
def add (entries : List TaggedUrl) (urls : List (Option JStr))
    (tags : List JStr) : List TaggedUrl :=
  urls.foldl (fun acc u => addOne acc u tags) entries

/-- A configuration entry (`FSConfigEntry` in `src/config/ConfigLoader.ts`). -/
structure FSConfigEntry where
  url : JStr
  tags : Option (List JStr)
deriving DecidableEq, Repr

/-- Model of `addFromConfig(entries)`: pushes `{ url: entry.url,
tags: entry.tags ?? [] }` verbatim, with no trimming or emptiness check. -/
def addFromConfig (entries : List TaggedUrl) (cfg : List FSConfigEntry) :
    List TaggedUrl :=
  cfg.foldl (fun acc e => acc ++ [⟨e.url, e.tags.getD []⟩]) entries

/- ### Message and validator

Source: `FSMessage` in `src/core/Message.ts` and `validateMessage` in
`packages/core/src/utils/validation.ts`.  The `attachments` and
`metadata` fields are opaque payloads never inspected by the routing
core and are omitted; the `typeof`/null checks of the validator concern
ill-typed JS values that the typed embedding cannot represent. -/

structure FSMessage where
  title : Option JStr := none
  body : JStr
  tags : Option (List JStr) := none
deriving DecidableEq, Repr

/-- Model of `validateMessage(message)` on well-typed messages: throws
`Error('Message body cannot be empty')` when the body trims to the empty
string, otherwise returns `true`. -/
def validateMessage (m : FSMessage) : Except JsError Bool :=
  if jsTrim m.body = [] then
    .error (.jsError (jstr "Message body cannot be empty"))
  else .ok true

/- ### Lemmas for the placeholder substitutor -/

theorem findCloseBrace_append (name tail : JStr) (h : '}' ∉ name) :
    findCloseBrace (name ++ '}' :: tail) = some (name, tail) := by
  induction name with
  | nil => simp [findCloseBrace]
  | cons c cs ih =>
    have hc : c ≠ '}' := by
      intro hcon; exact h (by simp [hcon])
    have hcs : '}' ∉ cs := fun hx => h (List.mem_cons_of_mem c hx)
    simp [findCloseBrace, hc, ih hcs]

theorem rpGo_cons_ne (params : List (JStr × JStr)) (fuel : Nat) (c : Char)
    (rest : JStr) (h : ¬ c = '{') :
    rpGo params (fuel + 1) (c :: rest) =
      (rpGo params fuel rest).map (fun t => c :: t) := by
  cases rest <;> simp [rpGo, h]

theorem rpGo_append_lit (params : List (JStr × JStr)) (pre : JStr)
    (hpre : ∀ c ∈ pre, c ≠ '{') (fuel : Nat) (rest : JStr) :
    rpGo params (pre.length + fuel) (pre ++ rest) =
      (rpGo params fuel rest).map (fun t => pre ++ t) := by
  induction pre with
  | nil =>
    simp only [List.length_nil, Nat.zero_add, List.nil_append]
    cases hres : rpGo params fuel rest <;> rfl
  | cons c cs ih =>
    have hlen : (c :: cs).length + fuel = (cs.length + fuel) + 1 := by
      simp [List.length_cons]; omega
    rw [hlen, List.cons_append,
      rpGo_cons_ne params (cs.length + fuel) c (cs ++ rest)
        (hpre c (List.mem_cons_self c cs)),
      ih (fun x hx => hpre x (List.mem_cons_of_mem c hx))]
    cases hres : rpGo params fuel rest <;> rfl

/-- C9: placeholder substitution replaces each `{name}` token with the
percent-encoded parameter value, does not re-scan substituted values for
further placeholders (the substituted value is inserted encoded, so its
braces appear as `%7B`/`%7D`), and fails with an error identifying the
missing key when the parameter is absent; including the two concrete
examples from the specification and a concrete no-re-scan example. -/
theorem replacePlaceholders_spec :
    (replacePlaceholders (jstr "a://{h}/{p}")
        [(jstr "h", jstr "host"), (jstr "p", jstr "path one")] =
      .ok (jstr "a://host/path%20one")) ∧
    (replacePlaceholders (jstr "a://{missing}") [] =
      .error (.jsError (jstr "Missing param 'missing' for URL placeholder"))) ∧
    (replacePlaceholders (jstr "a://{h}")
        [(jstr "h", jstr "{p}"), (jstr "p", jstr "x")] =
      .ok (jstr "a://%7Bp%7D")) ∧
    (∀ name params, name ≠ [] → '}' ∉ name → lookupStr params name = none →
      replacePlaceholders (jstr "a://" ++ '{' :: name ++ ['}']) params =
        .error (.jsError (jstr "Missing param '" ++ name ++
          jstr "' for URL placeholder"))) ∧
    (∀ name v params, name ≠ [] → '}' ∉ name → lookupStr params name = some v →
      replacePlaceholders (jstr "a://" ++ '{' :: name ++ ['}']) params =
        .ok (jstr "a://" ++ encodeURIComponent v)) := by
  refine ⟨by decide, by decide, by decide, ?_, ?_⟩
  · intro name params hne hnb hlk
    unfold replacePlaceholders
    have hlen : (jstr "a://" ++ '{' :: name ++ ['}']).length =
        (jstr "a://").length + (name.length + 2) := by
      simp [jstr]; omega
    rw [hlen, List.append_assoc,
      rpGo_append_lit params (jstr "a://") (by decide) _ _]
    have hb : rpGo params (name.length + 1 + 1) ('{' :: (name ++ ['}'])) =
        .error (.jsError (jstr "Missing param '" ++ name ++
          jstr "' for URL placeholder")) := by
      have hfind : findCloseBrace (name ++ ['}']) = some (name, []) := by
        simpa using findCloseBrace_append name [] hnb
      simp [rpGo, hfind, hne, hlk]
    have h2 : name.length + 2 = name.length + 1 + 1 := by omega
    rw [h2, List.cons_append, hb]
    rfl
  · intro name v params hne hnb hlk
    unfold replacePlaceholders
    have hlen : (jstr "a://" ++ '{' :: name ++ ['}']).length =
        (jstr "a://").length + (name.length + 2) := by
      simp [jstr]; omega
    rw [hlen, List.append_assoc,
      rpGo_append_lit params (jstr "a://") (by decide) _ _]
    have hb : rpGo params (name.length + 1 + 1) ('{' :: (name ++ ['}'])) =
        .ok (encodeURIComponent v) := by
      have hfind : findCloseBrace (name ++ ['}']) = some (name, []) := by
        simpa using findCloseBrace_append name [] hnb
      simp [rpGo, hfind, hne, hlk, Except.map]
    have h2 : name.length + 2 = name.length + 1 + 1 := by omega
    rw [h2, List.cons_append, hb]
    rfl

/-- C9 witness: the quantified parts instantiated at concrete inputs. -/
theorem replacePlaceholders_spec_witness :
    ((jstr "k") ≠ ([] : JStr) ∧ '}' ∉ jstr "k" ∧
      lookupStr [] (jstr "k") = none ∧
      replacePlaceholders (jstr "a://" ++ '{' :: jstr "k" ++ ['}']) [] =
        .error (.jsError (jstr "Missing param '" ++ jstr "k" ++
          jstr "' for URL placeholder"))) ∧
    (lookupStr [(jstr "k", jstr "v v")] (jstr "k") = some (jstr "v v") ∧
      replacePlaceholders (jstr "a://" ++ '{' :: jstr "k" ++ ['}'])
          [(jstr "k", jstr "v v")] =
        .ok (jstr "a://" ++ encodeURIComponent (jstr "v v"))) :=
  ⟨⟨by decide, by decide, by decide,
    replacePlaceholders_spec.2.2.2.1 (jstr "k") [] (by decide) (by decide)
      (by decide)⟩,
   ⟨by decide,
    replacePlaceholders_spec.2.2.2.2 (jstr "k") (jstr "v v")
      [(jstr "k", jstr "v v")] (by decide) (by decide) (by decide)⟩⟩

/- ### Claims about the destination store (C10) -/

/-- C10 counterexample: `addFromConfig` (reachable through the public
`loadConfig` operation) appends a configuration entry whose URL is
whitespace-only verbatim, so the store does not maintain the claimed
"non-empty trimmed url" invariant under every operation. -/
theorem addFromConfig_ws_counterexample :
    addFromConfig [] [⟨jstr "   ", none⟩] = [⟨jstr "   ", []⟩] ∧
    jsTrim (jstr "   ") = [] := by
  constructor
  · rfl
  · decide

/-- C10 (amended): `add` skips an undefined, empty, or whitespace-only
URL leaving the store unchanged, otherwise appends exactly one entry with
the trimmed URL and the given tags at the end; entries appended by `add`
always have a non-empty trimmed URL and `add` preserves that invariant —
but the invariant is not maintained by every store operation, since
`addFromConfig` appends configuration entries verbatim. -/
theorem add_spec :
    (∀ entries tags, addOne entries none tags = entries) ∧
    (∀ entries u tags, jsTrim u = [] → addOne entries (some u) tags = entries) ∧
    (∀ entries u tags, jsTrim u ≠ [] →
      addOne entries (some u) tags = entries ++ [⟨jsTrim u, tags⟩]) ∧
    (∀ entries u tags,
      (∀ e ∈ entries, e.url ≠ [] ∧ jsTrim e.url = e.url) →
      ∀ e ∈ addOne entries u tags, e.url ≠ [] ∧ jsTrim e.url = e.url) := by
  refine ⟨fun entries tags => rfl, ?_, ?_, ?_⟩
  · intro entries u tags h
    simp [addOne, h]
  · intro entries u tags h
    simp [addOne, h]
  · intro entries u tags hinv e he
    match u with
    | none => exact hinv e he
    | some s =>
      by_cases hs : jsTrim s = []
      · rw [addOne] at he
        simp only [hs, if_pos rfl] at he
        exact hinv e he
      · rw [addOne] at he
        simp only [if_neg hs] at he
        rcases List.mem_append.mp he with hmem | hmem
        · exact hinv e hmem
        · have : e = ⟨jsTrim s, tags⟩ := by simpa using hmem
          subst this
          exact ⟨hs, jsTrim_idem s⟩

/-- C10 witness: amended-claim conjuncts instantiated concretely. -/
theorem add_spec_witness :
    (jsTrim (jstr " x://h ") ≠ [] ∧
      addOne [] (some (jstr " x://h ")) [jstr "t"] =
        [] ++ [⟨jsTrim (jstr " x://h "), [jstr "t"]⟩]) ∧
    (jsTrim (jstr "  ") = [] ∧
      addOne [] (some (jstr "  ")) [] = []) :=
  ⟨⟨by decide, add_spec.2.2.1 [] (jstr " x://h ") [jstr "t"] (by decide)⟩,
   ⟨by decide, add_spec.2.1 [] (jstr "  ") [] (by decide)⟩⟩

/- ### The dispatch orchestrator (`FireSignal` in `src/core/FireSignal.ts`)

Providers, the error callback and the fallback message formatter are
external collaborators; they are modelled through the interface the core
requires of them (spec section 6): provider `parseUrl`/`send` and the
error callback may throw (modelled as `Except`), while the fallback
message formatter is modelled as a total string-valued function (its
contract is to return a string) and the logger sink is not modelled —
instead every behaviourally relevant interaction (provider invocation,
error-handler invocation, logged callback failures, fallback dispatch)
is recorded in an explicit event trace. -/

/-- Scheme string ordered-pair params value: repeated query keys collapse
into an ordered list (`Record<string, string | string[]>`). -/
inductive ParamVal where
  | one (v : JStr)
  | many (vs : List JStr)
deriving DecidableEq, Repr

/-- Parsed destination record (`FSParsedUrl` in `src/core/UrlParser.ts`).
The `params` object is an association list in key-insertion order. -/
structure FSParsedUrl where
  schema : JStr
  hostname : Option JStr
  port : Option Int
  username : Option JStr
  password : Option JStr
  path : Option JStr
  segments : List JStr
  params : List (JStr × ParamVal)
  raw : JStr
deriving DecidableEq, Repr

/-- Context handed to a provider send (`FSProviderContext`). -/
structure FSProviderContext where
  url : JStr
  parsed : FSParsedUrl
  tags : Option (List JStr)

/-- Result of one provider send (`FSProviderResult`).  The opaque `raw`
diagnostics payload is not modelled. -/
structure FSProviderResult where
  success : Bool
  providerId : JStr
  error : Option JsError := none
deriving DecidableEq, Repr

/-- A provider (`FSProvider` in `src/providers/base/Provider.ts`):
`parseUrl` and `send` may throw. -/
structure FSProvider where
  id : JStr
  schemas : List JStr
  parseUrl : JStr → Except JsError FSParsedUrl
  send : FSMessage → FSProviderContext → Except JsError FSProviderResult

/-- Context passed to error handlers (`FSErrorContext`). -/
structure FSErrorContext where
  providerId : JStr
  url : JStr
  message : FSMessage
  tags : Option (List JStr)

/-- Error-handler configuration (`FSOnErrorConfig`). -/
structure FSOnErrorConfig where
  fallbackTags : Option (List JStr) := none
  message : Option (JsError → FSErrorContext → JStr) := none
  callback : Option (JsError → FSErrorContext → Except JsError Unit) := none

/-- The router state observed by `send`: the destination store, the
provider registry (`Map` modelled as a lookup function keyed by
lower-cased scheme) and the optional error-handler configuration. -/
structure FireSignalState where
  entries : List TaggedUrl
  providers : JStr → Option FSProvider
  onErrorConfig : Option FSOnErrorConfig := none

/-- Options for `send` (`SendOptions`). -/
structure SendOptions where
  tags : Option (List JStr) := none
  params : Option (List (JStr × JStr)) := none

/-- Model of `FireSignal.registerProvider`: inserts the provider under
each of its lower-cased schemes, overwriting earlier registrations. -/
def registerProvider (providers : JStr → Option FSProvider)
    (p : FSProvider) : JStr → Option FSProvider :=
  p.schemas.foldl
    (fun acc schema s => if s = lowerStr schema then some p else acc s)
    providers

/-- Model of `FireSignal.extractSchema`: the regex
`^([a-zA-Z][a-zA-Z0-9+.-]*):` lower-cased, or `''` with no match. -/
def isSchemeTailChar (c : Char) : Bool :=
  isAsciiAlpha c || isDigitChar c || c.toNat = 43 || c.toNat = 46 || c.toNat = 45

def extractSchema (url : JStr) : JStr :=
  match url with
  | [] => []
  | c :: rest =>
    if isAsciiAlpha c then
      match rest.dropWhile isSchemeTailChar with
      | ':' :: _ => lowerStr (c :: rest.takeWhile isSchemeTailChar)
      | _ => []
    else []

/-- Observable events of one `send` run, standing in for the log lines at
the corresponding places of the source. -/
inductive FSEvent where
  /-- A provider `send` invocation (`internal = true` inside
  `sendInternal`). -/
  | providerSend (internal : Bool) (providerId : JStr) (url : JStr)
  /-- `handleError` was invoked for a failed destination. -/
  | errorHandled (providerId : JStr)
  /-- The external `onError` callback returned normally. -/
  | callbackOk
  /-- The external `onError` callback threw; the error was caught and
  only logged (source lines 345-354). -/
  | callbackErrorLogged (msg : JStr)
  /-- A fallback notification was dispatched through `sendInternal` with
  the given safe tags (source lines 374-383). -/
  | fallbackDispatch (safeTags : List JStr)
deriving DecidableEq, Repr

/-- Model of `FireSignal.sendInternal` (lines 397-431): same loop as
`send` but failures are skipped silently or recorded without ever
invoking the error handler. -/
def sendInternal (st : FireSignalState) (message : FSMessage)
    (options : SendOptions) : List FSProviderResult × List FSEvent :=
  go (filterByTags st.entries options.tags)
where
  go : List JStr → List FSProviderResult × List FSEvent
    | [] => ([], [])
    | rawUrl :: rest =>
      let (rs, evs) := go rest
      match replacePlaceholders rawUrl (options.params.getD []) with
      | .error _ => (rs, evs)
      | .ok processedUrl =>
        match st.providers (extractSchema processedUrl) with
        | none => (rs, evs)
        | some p =>
          match p.parseUrl processedUrl with
          | .error e =>
            ({ success := false, providerId := p.id, error := some e } :: rs,
              evs)
          | .ok parsed =>
            match p.send message ⟨processedUrl, parsed, options.tags⟩ with
            | .ok result =>
              (result :: rs, .providerSend true p.id processedUrl :: evs)
            | .error e =>
              ({ success := false, providerId := p.id, error := some e } :: rs,
                .providerSend true p.id processedUrl :: evs)

/-- Default fallback message text (source line 367). -/
def defaultFallbackText (providerId msg : JStr) : JStr :=
  jstr "🚨 Notification failed: [" ++ providerId ++ jstr "] " ++ msg

/-- The `safeTags` computation of `handleError` (source line 358):
`fallbackTags.filter((t) => !context.tags?.includes(t))` — case
sensitive, and with undefined context tags every fallback tag is kept. -/
def safeTagsOf (fallbackTags : List JStr) (ctxTags : Option (List JStr)) :
    List JStr :=
  fallbackTags.filter (fun t =>
    match ctxTags with
    | none => true
    | some ts => ¬ ts.contains t)

/-- Model of `FireSignal.handleError` (lines 336-392).  Returns the
events of the handling run; the callback's thrown error is caught and
logged, `safeTags` filters out every fallback tag contained (case
sensitively) in the triggering send's tags, and a non-empty `safeTags`
dispatches a fallback message through `sendInternal`. -/
def handleError (st : FireSignalState) (error : JsError)
    (context : FSErrorContext) : List FSEvent :=
  match st.onErrorConfig with
  | none => []
  | some cfg =>
    let cbEvents :=
      match cfg.callback with
      | none => []
      | some cb =>
        match cb error context with
        | .ok _ => [FSEvent.callbackOk]
        | .error e => [FSEvent.callbackErrorLogged e.message]
    let fbEvents :=
      match cfg.fallbackTags with
      | none => []
      | some fallbackTags =>
        if fallbackTags.isEmpty then []
        else
          let safeTags := safeTagsOf fallbackTags context.tags
          if safeTags.isEmpty then []
          else
            let fallbackMessage :=
              match cfg.message with
              | some f => f error context
              | none => defaultFallbackText context.providerId error.message
            let inner := sendInternal st
              ⟨some (jstr "Fire-Signal Error"), fallbackMessage, none⟩
              ⟨some safeTags, none⟩
            FSEvent.fallbackDispatch safeTags :: inner.2
    cbEvents ++ fbEvents

/-- One iteration of the `send` loop (lines 265-328): placeholder
substitution, scheme extraction, provider resolution, provider
parse/send under a try/catch, and error handling on failure.  Exactly
one result is produced. -/
def dispatchStep (st : FireSignalState) (message : FSMessage)
    (options : SendOptions) (rawUrl : JStr) :
    FSProviderResult × List FSEvent :=
  match replacePlaceholders rawUrl (options.params.getD []) with
  | .error e =>
    ({ success := false, providerId := jstr "unknown", error := some e }, [])
  | .ok processedUrl =>
    let schema := extractSchema processedUrl
    match st.providers schema with
    | none =>
      ({ success := false,
         providerId := if schema.isEmpty then jstr "unknown" else schema,
         error := some (.providerNotFound schema) }, [])
    | some p =>
      match p.parseUrl processedUrl with
      | .error e =>
        ({ success := false, providerId := p.id, error := some e },
          FSEvent.errorHandled p.id ::
            handleError st e ⟨p.id, processedUrl, message, options.tags⟩)
      | .ok parsed =>
        match p.send message ⟨processedUrl, parsed, options.tags⟩ with
        | .ok result =>
          if result.success then (result, [.providerSend false p.id processedUrl])
          else
            (result, .providerSend false p.id processedUrl ::
              FSEvent.errorHandled p.id ::
                handleError st (result.error.getD (.jsError (jstr "Unknown error")))
                  ⟨p.id, processedUrl, message, options.tags⟩)
        | .error e =>
          ({ success := false, providerId := p.id, error := some e },
            .providerSend false p.id processedUrl ::
              FSEvent.errorHandled p.id ::
                handleError st e ⟨p.id, processedUrl, message, options.tags⟩)

/-- The `send` loop over the selected URLs. -/
def sendLoop (st : FireSignalState) (message : FSMessage)
    (options : SendOptions) : List JStr → List FSProviderResult × List FSEvent
  | [] => ([], [])
  | u :: rest =>
    let (r, evs) := dispatchStep st message options u
    let (rs, evs') := sendLoop st message options rest
    (r :: rs, evs ++ evs')

/-- Model of `FireSignal.send` (lines 251-331): filter the store by
tags, then dispatch to each selected URL in store-insertion order.  (The
source's early return on an empty selection returns the same empty
result list as the loop does.) -/
def send (st : FireSignalState) (message : FSMessage)
    (options : SendOptions) : List FSProviderResult × List FSEvent :=
  sendLoop st message options (filterByTags st.entries options.tags)

/- ### Event-trace observations -/

/-- The safe-tag lists of all fallback dispatches in a trace. -/
def fallbackTagsOf (evs : List FSEvent) : List (List JStr) :=
  evs.filterMap (fun e =>
    match e with
    | .fallbackDispatch ts => some ts
    | _ => none)

/-- The provider ids of all error-handler invocations in a trace. -/
def handledIdsOf (evs : List FSEvent) : List JStr :=
  evs.filterMap (fun e =>
    match e with
    | .errorHandled pid => some pid
    | _ => none)

theorem fallbackTagsOf_append (a b : List FSEvent) :
    fallbackTagsOf (a ++ b) = fallbackTagsOf a ++ fallbackTagsOf b := by
  simp [fallbackTagsOf]

theorem handledIdsOf_append (a b : List FSEvent) :
    handledIdsOf (a ++ b) = handledIdsOf a ++ handledIdsOf b := by
  simp [handledIdsOf]

/-- `sendInternal` only emits internal provider-send events: it never
invokes the error handler and never dispatches a fallback. -/
theorem sendInternal_go_events (st : FireSignalState) (m : FSMessage)
    (o : SendOptions) (urls : List JStr) :
    fallbackTagsOf (sendInternal.go st m o urls).2 = [] ∧
    handledIdsOf (sendInternal.go st m o urls).2 = [] := by
  induction urls with
  | nil => exact ⟨rfl, rfl⟩
  | cons u rest ih =>
    obtain ⟨ih1, ih2⟩ := ih
    simp only [sendInternal.go]
    split
    · exact ⟨ih1, ih2⟩
    · split
      · exact ⟨ih1, ih2⟩
      · split
        · exact ⟨ih1, ih2⟩
        · split
          · exact ⟨by simpa [fallbackTagsOf] using ih1,
              by simpa [handledIdsOf] using ih2⟩
          · exact ⟨by simpa [fallbackTagsOf] using ih1,
              by simpa [handledIdsOf] using ih2⟩

theorem sendInternal_events (st : FireSignalState) (m : FSMessage)
    (o : SendOptions) :
    fallbackTagsOf (sendInternal st m o).2 = [] ∧
    handledIdsOf (sendInternal st m o).2 = [] :=
  sendInternal_go_events st m o (filterByTags st.entries o.tags)

/-- The fallback dispatches of one `handleError` run, characterized by
`safeTagsOf`. -/
theorem handleError_fallback (st : FireSignalState) (cfg : FSOnErrorConfig)
    (err : JsError) (ctx : FSErrorContext) (F : List JStr)
    (hcfg : st.onErrorConfig = some cfg) (hF : cfg.fallbackTags = some F) :
    fallbackTagsOf (handleError st err ctx) =
      if safeTagsOf F ctx.tags = [] then [] else [safeTagsOf F ctx.tags] := by
  unfold handleError
  rw [hcfg]
  dsimp only
  rw [fallbackTagsOf_append]
  have hcb : fallbackTagsOf
      (match cfg.callback with
        | none => []
        | some cb =>
          match cb err ctx with
          | .ok _ => [FSEvent.callbackOk]
          | .error e => [FSEvent.callbackErrorLogged e.message]) = [] := by
    cases hc : cfg.callback with
    | none => rfl
    | some cb =>
      dsimp only
      cases hr : cb err ctx <;> rfl
  rw [hcb, List.nil_append, hF]
  dsimp only
  by_cases hFe : F = []
  · subst hFe
    simp [safeTagsOf, fallbackTagsOf]
  · have hne : F.isEmpty = false := by
      cases F with
      | nil => exact absurd rfl hFe
      | cons a l => rfl
    simp only [hne, Bool.false_eq_true, if_false]
    by_cases hsafe : safeTagsOf F ctx.tags = []
    · have hie : (safeTagsOf F ctx.tags).isEmpty = true := by
        rw [hsafe]; rfl
      simp [hie, hsafe, fallbackTagsOf]
    · have hie : (safeTagsOf F ctx.tags).isEmpty = false := by
        cases hs : safeTagsOf F ctx.tags with
        | nil => exact absurd hs hsafe
        | cons a l => rfl
      simp only [hie, Bool.false_eq_true, if_false, if_neg hsafe]
      rw [show ∀ ts evs, fallbackTagsOf (FSEvent.fallbackDispatch ts :: evs) =
            ts :: fallbackTagsOf evs from fun ts evs => rfl]
      rw [(sendInternal_events st _ _).1]

/- ### Result-sequence lemmas for `send` -/

theorem sendLoop_results (st : FireSignalState) (m : FSMessage)
    (o : SendOptions) (urls : List JStr) :
    (sendLoop st m o urls).1 = urls.map (fun u => (dispatchStep st m o u).1) := by
  induction urls with
  | nil => rfl
  | cons u rest ih => simp [sendLoop, ih]

theorem send_results_map (st : FireSignalState) (m : FSMessage)
    (o : SendOptions) :
    (send st m o).1 =
      (filterByTags st.entries o.tags).map (fun u => (dispatchStep st m o u).1) :=
  sendLoop_results st m o (filterByTags st.entries o.tags)

theorem send_results_length (st : FireSignalState) (m : FSMessage)
    (o : SendOptions) :
    (send st m o).1.length = (filterByTags st.entries o.tags).length := by
  rw [send_results_map, List.length_map]

/-- The per-destination result is independent of the error-handler
configuration: `handleError` contributes only events. -/
theorem dispatchStep_fst_onError (E : List TaggedUrl)
    (P : JStr → Option FSProvider) (X Y : Option FSOnErrorConfig)
    (m : FSMessage) (o : SendOptions) (u : JStr) :
    (dispatchStep ⟨E, P, X⟩ m o u).1 = (dispatchStep ⟨E, P, Y⟩ m o u).1 := by
  unfold dispatchStep
  dsimp only
  cases hrp : replacePlaceholders u (o.params.getD []) with
  | error e => rfl
  | ok processedUrl =>
    dsimp only
    cases hpr : P (extractSchema processedUrl) with
    | none => rfl
    | some p =>
      dsimp only
      cases hpu : p.parseUrl processedUrl with
      | error e => rfl
      | ok parsed =>
        dsimp only
        cases hsend : p.send m ⟨processedUrl, parsed, o.tags⟩ with
        | error e => rfl
        | ok result =>
          dsimp only
          cases hres : result.success <;> rfl

theorem send_fst_onError (E : List TaggedUrl) (P : JStr → Option FSProvider)
    (X Y : Option FSOnErrorConfig) (m : FSMessage) (o : SendOptions) :
    (send ⟨E, P, X⟩ m o).1 = (send ⟨E, P, Y⟩ m o).1 := by
  rw [send_results_map, send_results_map]
  dsimp only
  apply List.map_congr_left
  intro u _
  exact dispatchStep_fst_onError E P X Y m o u

/-- Replaces the external error callback of the configuration (if any). -/
def setCallback (st : FireSignalState)
    (c : Option (JsError → FSErrorContext → Except JsError Unit)) :
    FireSignalState :=
  { st with onErrorConfig := st.onErrorConfig.map (fun cfg => { cfg with callback := c }) }

/- ### Concrete fixtures for the orchestrator claims -/

/-- A trivial successful parse used by the demo providers. -/
def okParsed (schema : JStr) (u : JStr) : FSParsedUrl :=
  ⟨schema, none, none, none, none, none, [], [], u⟩

/-- A registered provider whose sends always succeed. -/
def okProvider : FSProvider :=
  { id := jstr "ok", schemas := [jstr "ok"],
    parseUrl := fun u => .ok (okParsed (jstr "ok") u),
    send := fun _ _ => .ok ⟨true, jstr "ok", none⟩ }

/-- A registered provider whose sends always report failure. -/
def badProvider : FSProvider :=
  { id := jstr "bad", schemas := [jstr "bad"],
    parseUrl := fun u => .ok (okParsed (jstr "bad") u),
    send := fun _ _ => .ok ⟨false, jstr "bad", some (.jsError (jstr "boom"))⟩ }

/-- Registry with the two demo providers (schemes `ok` and `bad`). -/
def demoProviders : JStr → Option FSProvider := fun s =>
  if s = jstr "ok" then some okProvider
  else if s = jstr "bad" then some badProvider
  else none

def msgHello : FSMessage := ⟨some (jstr "Test"), jstr "Hello", none⟩

/-- Two destinations: one with a registered always-succeeding provider,
one with an unregistered scheme. -/
def stTwo : FireSignalState :=
  ⟨[⟨jstr "ok://h", []⟩, ⟨jstr "nope://h", []⟩], demoProviders, none⟩

/-- One destination with a registered always-succeeding provider. -/
def stOne : FireSignalState := ⟨[⟨jstr "ok://h", []⟩], demoProviders, none⟩

def cfgFallbackA : FSOnErrorConfig := { fallbackTags := some [jstr "a"] }

/-- A failing destination tagged `a`, with fallback tags `["a"]`. -/
def stFailA : FireSignalState :=
  ⟨[⟨jstr "bad://h", [jstr "a"]⟩], demoProviders, some cfgFallbackA⟩

/-- A failing destination tagged `b` and a succeeding destination tagged
`a`, with fallback tags `["a"]`. -/
def stFailB : FireSignalState :=
  ⟨[⟨jstr "bad://h", [jstr "b"]⟩, ⟨jstr "ok://h2", [jstr "a"]⟩],
    demoProviders, some cfgFallbackA⟩

/-- C1: `send` returns one result per destination selected by the tag
filter, in store-insertion order (the result list is the image of the
selected URL list under the per-destination dispatch step), its length
always equals the number of selected destinations, and in the concrete
two-destination scenario it returns exactly one `success = true` result
and one `success = false` result carrying a `ProviderNotFoundError`,
without aborting early. -/
theorem send_one_result_per_destination :
    (∀ st m o, (send st m o).1 =
      (filterByTags st.entries o.tags).map (fun u => (dispatchStep st m o u).1)) ∧
    (∀ st m o, (send st m o).1.length = (filterByTags st.entries o.tags).length) ∧
    ((send stTwo msgHello {}).1 =
      [⟨true, jstr "ok", none⟩,
       ⟨false, jstr "nope", some (.providerNotFound (jstr "nope"))⟩]) :=
  ⟨send_results_map, send_results_length, by decide⟩

/-- C2 counterexample: a message whose body is whitespace-only is not
rejected; it is dispatched to the provider and yields the provider's
success result, with no validation-failure entry. -/
theorem send_empty_body_dispatches :
    (send stOne ⟨none, jstr "   ", none⟩ {}).1 = [⟨true, jstr "ok", none⟩] := by
  decide

/-- C2 (amended): `send` performs no body validation — a message with an
empty or whitespace-only body is dispatched exactly like any other
message, one result per selected destination; body validation exists
only in the separate `validateMessage` helper, which throws
`Error('Message body cannot be empty')` on such a body and is never
invoked by `send`. -/
theorem send_no_body_validation (st : FireSignalState) (m : FSMessage)
    (o : SendOptions) (h : jsTrim m.body = []) :
    validateMessage m = .error (.jsError (jstr "Message body cannot be empty")) ∧
    (send st m o).1.length = (filterByTags st.entries o.tags).length := by
  refine ⟨?_, send_results_length st m o⟩
  simp [validateMessage, h]

/-- C2 witness. -/
theorem send_no_body_validation_witness :
    jsTrim (jstr "  ") = [] ∧
    (validateMessage ⟨none, jstr "  ", none⟩ =
        .error (.jsError (jstr "Message body cannot be empty")) ∧
      (send stOne ⟨none, jstr "  ", none⟩ {}).1.length =
        (filterByTags stOne.entries (({} : SendOptions)).tags).length) :=
  ⟨by decide, send_no_body_validation stOne ⟨none, jstr "  ", none⟩ {} (by decide)⟩

/-- C3: on a provider failure with configured fallback tags `F`, the
handler dispatches a fallback exactly when the case-sensitive difference
`safeTags = F − context.tags` is non-empty, and then with precisely
those tags; concretely, with `F = ["a"]` a failing send filtered by
`tags = ["a"]` triggers no fallback dispatch, while one filtered by
`tags = ["b"]` triggers exactly one fallback dispatch filtered by tag
`"a"`, which reaches the `a`-tagged destination. -/
theorem fallback_safe_tags :
    (∀ st cfg err ctx F, st.onErrorConfig = some cfg →
      cfg.fallbackTags = some F →
      fallbackTagsOf (handleError st err ctx) =
        if safeTagsOf F ctx.tags = [] then [] else [safeTagsOf F ctx.tags]) ∧
    (safeTagsOf [jstr "a"] (some [jstr "a"]) = [] ∧
      fallbackTagsOf (send stFailA msgHello ⟨some [jstr "a"], none⟩).2 = []) ∧
    (safeTagsOf [jstr "a"] (some [jstr "b"]) = [jstr "a"] ∧
      fallbackTagsOf (send stFailB msgHello ⟨some [jstr "b"], none⟩).2 =
        [[jstr "a"]] ∧
      (send stFailB msgHello ⟨some [jstr "b"], none⟩).2.contains
        (.providerSend true (jstr "ok") (jstr "ok://h2")) = true) :=
  ⟨fun st cfg err ctx F hcfg hF => handleError_fallback st cfg err ctx F hcfg hF,
   ⟨by decide, by decide⟩,
   ⟨by decide, by decide, by decide⟩⟩

/-- C3 witness: the quantified conjunct at a concrete configuration. -/
theorem fallback_safe_tags_witness :
    stFailA.onErrorConfig = some cfgFallbackA ∧
    cfgFallbackA.fallbackTags = some [jstr "a"] ∧
    fallbackTagsOf (handleError stFailA (.jsError (jstr "boom"))
        ⟨jstr "bad", jstr "bad://h", msgHello, some [jstr "b"]⟩) =
      (if safeTagsOf [jstr "a"] (some [jstr "b"]) = [] then []
       else [safeTagsOf [jstr "a"] (some [jstr "b"])]) :=
  ⟨rfl, rfl,
   fallback_safe_tags.1 stFailA cfgFallbackA (.jsError (jstr "boom"))
     ⟨jstr "bad", jstr "bad://h", msgHello, some [jstr "b"]⟩ [jstr "a"] rfl rfl⟩

/-- C4: the internal fallback dispatch path never invokes the
fallback/error handler (its trace contains no handler invocation and no
fallback dispatch, so fallback nesting depth never exceeds one), and an
exception thrown by the configured external error callback is caught and
only logged: the handler trace records the logged callback failure and
the main batch's result sequence does not depend on the callback at all. -/
theorem fallback_never_nested :
    (∀ st m o, fallbackTagsOf (sendInternal st m o).2 = [] ∧
      handledIdsOf (sendInternal st m o).2 = []) ∧
    (∀ st m o c₁ c₂,
      (send (setCallback st c₁) m o).1 = (send (setCallback st c₂) m o).1) ∧
    (∀ st cfg cb err ctx e, st.onErrorConfig = some cfg →
      cfg.callback = some cb → cb err ctx = .error e →
      (handleError st err ctx).contains (.callbackErrorLogged e.message) = true) := by
  refine ⟨sendInternal_events, ?_, ?_⟩
  · intro st m o c₁ c₂
    exact send_fst_onError st.entries st.providers _ _ m o
  · intro st cfg cb err ctx e hcfg hc hr
    unfold handleError
    rw [hcfg]
    dsimp only
    rw [hc]
    dsimp only
    rw [hr]
    simp [List.contains_cons]

def cbThrow : JsError → FSErrorContext → Except JsError Unit :=
  fun _ _ => .error (.jsError (jstr "cb boom"))

def cfgCb : FSOnErrorConfig := { callback := some cbThrow }

def stCb : FireSignalState := ⟨[], demoProviders, some cfgCb⟩

/-- C4 witness: the callback-logging conjunct at a concrete throwing
callback. -/
theorem fallback_never_nested_witness :
    stCb.onErrorConfig = some cfgCb ∧
    cfgCb.callback = some cbThrow ∧
    cbThrow (.jsError (jstr "boom"))
        ⟨jstr "bad", jstr "bad://h", msgHello, none⟩ =
      .error (.jsError (jstr "cb boom")) ∧
    (handleError stCb (.jsError (jstr "boom"))
        ⟨jstr "bad", jstr "bad://h", msgHello, none⟩).contains
      (.callbackErrorLogged (JsError.jsError (jstr "cb boom")).message) = true :=
  ⟨rfl, rfl, rfl,
   fallback_never_nested.2.2 stCb cfgCb cbThrow (.jsError (jstr "boom"))
     ⟨jstr "bad", jstr "bad://h", msgHello, none⟩ (.jsError (jstr "cb boom"))
     rfl rfl rfl⟩

/- ### The URI decomposer (`parseFSUrl` in `src/core/UrlParser.ts`)

The decomposer first extracts the scheme with the regex
`^([a-zA-Z][a-zA-Z0-9+.-]*):\/\/`, substitutes `https://` for the custom
scheme and attempts strict WHATWG `URL` parsing; if the constructor
throws it falls back to manual token splitting.  Query parsing uses
`URLSearchParams` in both paths. -/

/-- Model of JS `String.prototype.split` with a single-character
separator (JS `split` always yields at least one element). -/
def jsSplit (sep : Char) : JStr → List JStr
  | [] => [[]]
  | c :: rest =>
    if c = sep then [] :: jsSplit sep rest
    else
      match jsSplit sep rest with
      | h :: t => (c :: h) :: t
      | [] => [[c]]

/-- Split at the first occurrence of a character, keeping the remainder
(`none` when the character does not occur). -/
def splitFirst (sep : Char) : JStr → JStr × Option JStr
  | [] => ([], none)
  | c :: rest =>
    if c = sep then ([], some rest)
    else
      let p := splitFirst sep rest
      (c :: p.1, p.2)

/-- Split the authority from the path/query of a URL remainder: the
second component starts at the first `/` or `?` (inclusive). -/
def splitAuthority : JStr → JStr × JStr
  | [] => ([], [])
  | c :: rest =>
    if c = '/' ∨ c = '?' then ([], c :: rest)
    else
      let p := splitAuthority rest
      (c :: p.1, p.2)

/-- Model of `String.prototype.lastIndexOf` for a single character. -/
def lastIndexOf (sep : Char) : JStr → Option Nat
  | [] => none
  | c :: rest =>
    match lastIndexOf sep rest with
    | some i => some (i + 1)
    | none => if c = sep then some 0 else none

/-- Model of `Array.prototype.join` with a single-character separator. -/
def joinSep (sep : Char) : List JStr → JStr
  | [] => []
  | [x] => x
  | x :: y :: ys => x ++ sep :: joinSep sep (y :: ys)

/-- Value of a hexadecimal digit. -/
def hexVal (c : Char) : Option Nat :=
  if '0' ≤ c ∧ c ≤ '9' then some (c.toNat - 48)
  else if 'a' ≤ c ∧ c ≤ 'f' then some (c.toNat - 87)
  else if 'A' ≤ c ∧ c ≤ 'F' then some (c.toNat - 55)
  else none

/-- Decimal value of a digit string (the caller checks the digits). -/
def digitsToNat (ds : JStr) : Nat :=
  ds.foldl (fun acc c => acc * 10 + (c.toNat - 48)) 0

/-- The leading decimal-digit prefix as a number, if non-empty. -/
def digitsDecimal (s : JStr) : Option Nat :=
  let ds := s.takeWhile isDigitChar
  if ds.isEmpty then none else some (digitsToNat ds)

/-- Model of `parseInt(s, 10)`: skip leading whitespace, read an
optional sign and the longest decimal-digit prefix; `none` is `NaN`. -/
def parseIntJS (s : JStr) : Option Int :=
  match s.dropWhile isWsChar with
  | '-' :: rest => (digitsDecimal rest).map (fun n => -(n : Int))
  | '+' :: rest => (digitsDecimal rest).map (fun n => (n : Int))
  | t => (digitsDecimal t).map (fun n => (n : Int))

/-- Model of `decodeURIComponent` on its ASCII fragment: `%XX` escapes
below `0x80` decode to the corresponding character, malformed escapes
and high bytes throw `URIError`.  (The real runtime additionally decodes
well-formed multi-byte UTF-8 escape sequences, which no claim touches;
it likewise throws on malformed ones.) -/
def decodeURIComponentE : JStr → Except JsError JStr
  | [] => .ok []
  | '%' :: c1 :: c2 :: rest =>
    match hexVal c1, hexVal c2 with
    | some h, some l =>
      if h * 16 + l < 128 then
        (decodeURIComponentE rest).map (fun t => Char.ofNat (h * 16 + l) :: t)
      else .error .uriError
    | _, _ => .error .uriError
  | '%' :: _ => .error .uriError
  | c :: rest => (decodeURIComponentE rest).map (fun t => c :: t)

/-- Lenient form-urlencoded decoding used by `URLSearchParams`: `+`
becomes a space, well-formed ASCII `%XX` escapes decode, anything
malformed is kept literally (never throws). -/
def formDecode : JStr → JStr
  | [] => []
  | '+' :: rest => ' ' :: formDecode rest
  | '%' :: c1 :: c2 :: rest =>
    match hexVal c1, hexVal c2 with
    | some h, some l =>
      if h * 16 + l < 128 then Char.ofNat (h * 16 + l) :: formDecode rest
      else '%' :: c1 :: c2 :: formDecode rest
    | _, _ => '%' :: formDecode (c1 :: c2 :: rest)
  | c :: rest => c :: formDecode rest

/-- Model of `URLSearchParams` pair parsing: split on `&`, skip empty
chunks, split each chunk at its first `=` (missing value is empty),
decode both sides leniently, preserving order. -/
def urlSearchParamsPairs (q : JStr) : List (JStr × JStr) :=
  (jsSplit '&' q).filterMap (fun part =>
    if part.isEmpty then none
    else
      let kv := splitFirst '=' part
      some (formDecode kv.1, formDecode (kv.2.getD [])))

/-- One step of the repeated-key collapsing loop shared by both parsing
paths (source lines 154-167 and 171-182): a JS object keyed by strings,
first value stored as a string, later values appended into an array. -/
def insertParam (ps : List (JStr × ParamVal)) (k : JStr) (v : JStr) :
    List (JStr × ParamVal) :=
  match ps with
  | [] => [(k, .one v)]
  | (k', pv) :: rest =>
    if k' = k then
      (k', match pv with
        | .one v0 => .many [v0, v]
        | .many vs => .many (vs ++ [v])) :: rest
    else (k', pv) :: insertParam rest k v

/-- `searchParams.forEach` collapsing loop over the pairs in order. -/
def collapseParams (pairs : List (JStr × JStr)) : List (JStr × ParamVal) :=
  pairs.foldl (fun ps kv => insertParam ps kv.1 kv.2) []

/-- First-match lookup in the params object. -/
def lookupParam (ps : List (JStr × ParamVal)) (k : JStr) : Option ParamVal :=
  match ps with
  | [] => none
  | (k', pv) :: rest => if k' = k then some pv else lookupParam rest k

/- ### The strict WHATWG `URL` model -/

/-- The fields of a parsed `URL` object read by `parseFSUrl`
(`hostname`, `port` — empty for an absent or default port —,
`username`, `password`, `pathname`, and the query handed to
`searchParams`). -/
structure JsURL where
  hostname : JStr
  port : JStr
  username : JStr := []
  password : JStr := []
  pathname : JStr
  search : JStr
deriving DecidableEq, Repr

def isLowerAlphaChar (c : Char) : Bool := 97 ≤ c.toNat && c.toNat ≤ 122

def isHostChar (c : Char) : Bool :=
  isLowerAlphaChar c || isDigitChar c || c.toNat = 46 || c.toNat = 45

/-- Hosts the strict model accepts: non-empty, lower-case
letters/digits/dots/hyphens, no empty dot-label, and a letter in the
last label (so the WHATWG IPv4 parser is never involved). -/
def hostOk (h : JStr) : Bool :=
  !h.isEmpty && h.all isHostChar &&
  (jsSplit '.' h).all (fun lab => !lab.isEmpty) &&
  ((jsSplit '.' h).getLastD []).any isLowerAlphaChar

/-- Characters outside the conservative strict-model fragment (userinfo,
fragments, percent-escapes, backslashes, brackets, whitespace and
controls); inputs containing one are rejected and take the fallback
path. -/
def isRejectChar (c : Char) : Bool :=
  c.toNat = 64 || c.toNat = 35 || c.toNat = 37 || c.toNat = 92 ||
  c.toNat = 91 || c.toNat = 93 || c.toNat = 32 || c.toNat < 32 ||
  127 ≤ c.toNat

/-- Dot path segments would be normalized by the real parser; the model
rejects them instead. -/
def dotFreeSegments (p : JStr) : Bool :=
  (jsSplit '/' p).all (fun s => !(s == jstr ".") && !(s == jstr ".."))

/-- Split the path-and-query tail: an empty path serializes as `/`. -/
def pathSearch (pq : JStr) : Option (JStr × JStr) :=
  match pq with
  | [] => some (jstr "/", [])
  | '?' :: q => some (jstr "/", q)
  | '/' :: _ =>
    let p := splitFirst '?' pq
    if dotFreeSegments p.1 then some (p.1, (p.2.getD [])) else none
  | _ => none

/-- Conservative model of `try { new URL(l) } catch { ... }` for
`https://`-prefixed inputs: parses host, optional decimal port (the
default port 443 serializes as the empty string, ports above 65535
throw), path and query on a fragment where the real parser performs no
normalization; everything outside the fragment is rejected (`none` =
the constructor threw), which sends the caller to the manual fallback
path. -/
def urlStrictModel (l : JStr) : Option JsURL :=
  if (jstr "https://").isPrefixOf l then
    let r := l.drop 8
    if r.any isRejectChar then none
    else
      let ap := splitAuthority r
      let hp := splitFirst ':' ap.1
      if hostOk hp.1 then
        match hp.2 with
        | none =>
          (pathSearch ap.2).map (fun pq => ⟨hp.1, [], [], [], pq.1, pq.2⟩)
        | some ps =>
          if !ps.isEmpty && ps.all isDigitChar then
            let n := digitsToNat ps
            if n < 65536 then
              (pathSearch ap.2).map (fun pq =>
                ⟨hp.1, if n = 443 then [] else Nat.toDigits 10 n,
                  [], [], pq.1, pq.2⟩)
            else none
          else none
      else none
  else none

/- ### The two construction paths and `parseFSUrl` itself -/

/-- The recurring source pattern `x ? decodeURIComponent(x) : undefined`
for a credential string (throws on a malformed escape). -/
def decodeOptional (s : JStr) : Except JsError (Option JStr) :=
  if s.isEmpty then pure none else (decodeURIComponentE s).map some

/-- The strict branch of `parseFSUrl` (source lines 170-197 plus the
shared record construction at 199-211): query collapsing from
`searchParams`, `pathname.slice(1)`, `hostname || undefined`,
credentials percent-decoded when non-empty (throwing on malformed
escapes), `port` via `parseInt` when non-empty. -/
def strictBuild (schema : JStr) (parsed : JsURL) (trimmed : JStr) :
    Except JsError FSParsedUrl := do
  let params := collapseParams (urlSearchParamsPairs parsed.search)
  let pathWithoutSlash := parsed.pathname.drop 1
  let hostname := if parsed.hostname.isEmpty then none else some parsed.hostname
  let username ← decodeOptional parsed.username
  let password ← decodeOptional parsed.password
  let port := if parsed.port.isEmpty then none else parseIntJS parsed.port
  .ok { schema, hostname, port, username, password,
        path := if pathWithoutSlash.isEmpty then none else some pathWithoutSlash,
        segments := (jsSplit '/' pathWithoutSlash).filter (fun s => !s.isEmpty),
        params, raw := trimmed }

/-- Credentials from the part before `@` (source lines 118-124):
split on `:` when present, decode each non-empty piece. -/
def fallbackCreds (authPart : JStr) :
    Except JsError (Option JStr × Option JStr) :=
  if authPart.contains ':' then do
    let uparts := jsSplit ':' authPart
    let u ← decodeOptional (uparts.headD [])
    let p ← (match uparts[1]? with
      | none => pure (none : Option JStr)
      | some pw => decodeOptional pw)
    pure (u, p)
  else do
    let u ← decodeOptional authPart
    pure (u, none)

/-- Host and port from the part after `@` (source lines 126-134):
split at the first `:`, port via `parseInt` (`NaN` is no port). -/
def credHostPort (hostPart : Option JStr) : Option JStr × Option Int :=
  match hostPart with
  | none => (none, none)
  | some hp =>
    if hp.contains ':' then
      let hparts := jsSplit ':' hp
      (some (hparts.headD []), parseIntJS ((hparts[1]?).getD []))
    else (some hp, none)

/-- Host and port when no `@` is present (source lines 135-149): split
at the last `:`; the piece after it is a port only when it is a
non-empty all-digit string. -/
def noAuthHostPort (firstSegment : JStr) : Option JStr × Option Int :=
  match lastIndexOf ':' firstSegment with
  | none => (some firstSegment, none)
  | some i =>
    let potentialPort := firstSegment.drop (i + 1)
    match parseIntJS potentialPort with
    | some n =>
      if !potentialPort.isEmpty && potentialPort.all isDigitChar then
        (some (firstSegment.take i), some n)
      else (some firstSegment, none)
    | none => (some firstSegment, none)

/-- Username, password, hostname and port of the fallback path, read
out of the first path segment. -/
def fallbackAuth (firstSegment : JStr) :
    Except JsError (Option JStr × Option JStr × Option JStr × Option Int) :=
  if firstSegment.contains '@' then do
    let aparts := jsSplit '@' firstSegment
    let up ← fallbackCreds (aparts.headD [])
    let hp := credHostPort aparts[1]?
    pure (up.1, up.2, hp.1, hp.2)
  else
    let hp := noAuthHostPort firstSegment
    pure (none, none, hp.1, hp.2)

/-- The manual fallback branch of `parseFSUrl` (source lines 102-167
plus the shared record construction): split path from query at the
first `?` (JS destructuring drops anything after a second `?`), split
the path on `/`, read credentials/host/port out of the first segment,
and parse the query with the same collapsing rule. -/
def fallbackBuild (schema : JStr) (afterSchema : JStr) (trimmed : JStr) :
    Except JsError FSParsedUrl := do
  let parts := jsSplit '?' afterSchema
  let pathPart := parts.headD []
  let queryPart : Option JStr := parts[1]?
  let pathSegments := jsSplit '/' pathPart
  let firstSegment := pathSegments.headD []
  let auth ← fallbackAuth firstSegment
  let pathWithoutSlash := joinSep '/' (pathSegments.drop 1)
  let params :=
    match queryPart with
    | some q =>
      if q.isEmpty then [] else collapseParams (urlSearchParamsPairs q)
    | none => []
  .ok { schema, hostname := auth.2.2.1, port := auth.2.2.2,
        username := auth.1, password := auth.2.1,
        path := if pathWithoutSlash.isEmpty then none else some pathWithoutSlash,
        segments := (jsSplit '/' pathWithoutSlash).filter (fun s => !s.isEmpty),
        params, raw := trimmed }

/-- Scheme extraction with the regex `^([a-zA-Z][a-zA-Z0-9+.-]*):\/\/`:
returns the scheme and the remainder after `://`. -/
def schemeSplit (l : JStr) : Option (JStr × JStr) :=
  match l with
  | [] => none
  | c :: rest =>
    if isAsciiAlpha c then
      match rest.dropWhile isSchemeTailChar with
      | ':' :: '/' :: '/' :: r => some (c :: rest.takeWhile isSchemeTailChar, r)
      | _ => none
    else none

/-- Model of `parseFSUrl(raw)`, parameterized by the strict URL parser
(`new URL`).  An empty input or a missing `scheme://` prefix throws
`FSParseError`; otherwise the custom scheme is replaced by `https://`
and strict parsing is attempted, falling back to manual splitting when
the constructor throws. -/
def parseFSUrlWith (strict : JStr → Option JsURL) (raw : JStr) :
    Except JsError FSParsedUrl :=
  if raw.isEmpty then
    .error (.parseError (jstr "URL must be a non-empty string") raw)
  else
    let trimmed := jsTrim raw
    match schemeSplit trimmed with
    | none => .error (.parseError (jstr "Invalid URL format: missing schema") raw)
    | some sr =>
      let schema := lowerStr sr.1
      match strict (jstr "https://" ++ sr.2) with
      | some parsed => strictBuild schema parsed trimmed
      | none => fallbackBuild schema sr.2 trimmed

/-- `parseFSUrl` instantiated with the strict-parser model. -/
def parseFSUrl (raw : JStr) : Except JsError FSParsedUrl :=
  parseFSUrlWith urlStrictModel raw

/- ### Safe alphabets for the quantified decomposition claims -/

/-- Lower-case alphanumeric characters: a safe alphabet for path
segments, query keys and query values. -/
def isTokenChar (c : Char) : Bool := isLowerAlphaChar c || isDigitChar c

/-- Non-empty lower-case alphanumeric string. -/
def isToken (s : JStr) : Bool := !s.isEmpty && s.all isTokenChar

/-- Non-empty lower-case alphabetic hostname (inside the strict-model
fragment). -/
def isHostToken (h : JStr) : Bool := !h.isEmpty && h.all isLowerAlphaChar

/-- A scheme matching `[a-zA-Z][a-zA-Z0-9+.-]*`. -/
def isSchemeName (s : JStr) : Bool :=
  match s with
  | [] => false
  | c :: cs => isAsciiAlpha c && cs.all isSchemeTailChar

/- ### Character-class lemmas -/

theorem char_class_ne {p : Char → Bool} {c d : Char} (h : p c = true)
    (hd : p d = false) : c ≠ d := by
  intro he
  rw [he, hd] at h
  exact Bool.noConfusion h

theorem tokenChar_bounds {c : Char} (h : isTokenChar c = true) :
    (97 ≤ c.toNat ∧ c.toNat ≤ 122) ∨ (48 ≤ c.toNat ∧ c.toNat ≤ 57) := by
  simpa [isTokenChar, isLowerAlphaChar, isDigitChar, Bool.or_eq_true,
    Bool.and_eq_true, decide_eq_true_eq] using h

theorem lowerChar_bounds {c : Char} (h : isLowerAlphaChar c = true) :
    97 ≤ c.toNat ∧ c.toNat ≤ 122 := by
  simpa [isLowerAlphaChar, Bool.and_eq_true, decide_eq_true_eq] using h

theorem schemeTailChar_bounds {c : Char} (h : isSchemeTailChar c = true) :
    (97 ≤ c.toNat ∧ c.toNat ≤ 122) ∨ (65 ≤ c.toNat ∧ c.toNat ≤ 90) ∨
    (48 ≤ c.toNat ∧ c.toNat ≤ 57) ∨ c.toNat = 43 ∨ c.toNat = 46 ∨
    c.toNat = 45 := by
  simp only [isSchemeTailChar, isAsciiAlpha, isDigitChar, Bool.or_eq_true,
    Bool.and_eq_true, decide_eq_true_eq] at h
  tauto

theorem digitChar_bounds {c : Char} (h : isDigitChar c = true) :
    48 ≤ c.toNat ∧ c.toNat ≤ 57 := by
  simpa [isDigitChar, Bool.and_eq_true, decide_eq_true_eq] using h

theorem notWs_of_bounds {c : Char}
    (h : 33 ≤ c.toNat) : isWsChar c = false := by
  simp only [isWsChar, Bool.or_eq_false_iff, decide_eq_false_iff_not]
  omega

theorem notReject_of_bounds {c : Char}
    (h : 33 ≤ c.toNat ∧ c.toNat ≤ 126 ∧ c.toNat ≠ 64 ∧ c.toNat ≠ 35 ∧
      c.toNat ≠ 37 ∧ c.toNat ≠ 92 ∧ c.toNat ≠ 91 ∧ c.toNat ≠ 93) :
    isRejectChar c = false := by
  simp only [isRejectChar, Bool.or_eq_false_iff, decide_eq_false_iff_not]
  omega

theorem tokenChar_notWs {c : Char} (h : isTokenChar c = true) :
    isWsChar c = false := by
  rcases tokenChar_bounds h with ⟨h1, h2⟩ | ⟨h1, h2⟩ <;>
    exact notWs_of_bounds (by omega)

theorem tokenChar_notReject {c : Char} (h : isTokenChar c = true) :
    isRejectChar c = false := by
  rcases tokenChar_bounds h with ⟨h1, h2⟩ | ⟨h1, h2⟩ <;>
    exact notReject_of_bounds (by omega)

theorem lowerChar_notWs {c : Char} (h : isLowerAlphaChar c = true) :
    isWsChar c = false :=
  notWs_of_bounds (by have := lowerChar_bounds h; omega)

theorem lowerChar_notReject {c : Char} (h : isLowerAlphaChar c = true) :
    isRejectChar c = false := by
  have := lowerChar_bounds h
  exact notReject_of_bounds (by omega)

theorem digitChar_notWs {c : Char} (h : isDigitChar c = true) :
    isWsChar c = false :=
  notWs_of_bounds (by have := digitChar_bounds h; omega)

theorem digitChar_notReject {c : Char} (h : isDigitChar c = true) :
    isRejectChar c = false := by
  have := digitChar_bounds h
  exact notReject_of_bounds (by omega)

theorem schemeTailChar_notWs {c : Char} (h : isSchemeTailChar c = true) :
    isWsChar c = false := by
  rcases schemeTailChar_bounds h with ⟨h1, h2⟩ | ⟨h1, h2⟩ | ⟨h1, h2⟩ | h1 | h1 | h1 <;>
    exact notWs_of_bounds (by omega)

theorem alphaChar_notWs {c : Char} (h : isAsciiAlpha c = true) :
    isWsChar c = false := by
  have : (97 ≤ c.toNat ∧ c.toNat ≤ 122) ∨ (65 ≤ c.toNat ∧ c.toNat ≤ 90) := by
    simpa [isAsciiAlpha, Bool.or_eq_true, Bool.and_eq_true,
      decide_eq_true_eq] using h
  rcases this with ⟨h1, h2⟩ | ⟨h1, h2⟩ <;> exact notWs_of_bounds (by omega)

/- ### Splitting lemmas -/

theorem jsSplit_no_sep (sep : Char) (l : JStr) (h : ∀ x ∈ l, x ≠ sep) :
    jsSplit sep l = [l] := by
  induction l with
  | nil => rfl
  | cons c rest ih =>
    have hc : c ≠ sep := h c (List.mem_cons_self c rest)
    rw [jsSplit, if_neg hc, ih (fun x hx => h x (List.mem_cons_of_mem c hx))]

theorem jsSplit_append_sep (sep : Char) (a b : JStr) (h : ∀ x ∈ a, x ≠ sep) :
    jsSplit sep (a ++ sep :: b) = a :: jsSplit sep b := by
  induction a with
  | nil => simp [jsSplit]
  | cons c rest ih =>
    have hc : c ≠ sep := h c (List.mem_cons_self c rest)
    rw [List.cons_append, jsSplit, if_neg hc,
      ih (fun x hx => h x (List.mem_cons_of_mem c hx))]

theorem jsSplit_cons_sep (sep : Char) (l : JStr) :
    jsSplit sep (sep :: l) = [] :: jsSplit sep l := by
  rw [jsSplit, if_pos rfl]

theorem splitFirst_no_sep (sep : Char) (l : JStr) (h : ∀ x ∈ l, x ≠ sep) :
    splitFirst sep l = (l, none) := by
  induction l with
  | nil => rfl
  | cons c rest ih =>
    have hc : c ≠ sep := h c (List.mem_cons_self c rest)
    rw [splitFirst, if_neg hc, ih (fun x hx => h x (List.mem_cons_of_mem c hx))]

theorem splitFirst_append (sep : Char) (a b : JStr) (h : ∀ x ∈ a, x ≠ sep) :
    splitFirst sep (a ++ sep :: b) = (a, some b) := by
  induction a with
  | nil => simp [splitFirst]
  | cons c rest ih =>
    have hc : c ≠ sep := h c (List.mem_cons_self c rest)
    rw [List.cons_append, splitFirst, if_neg hc,
      ih (fun x hx => h x (List.mem_cons_of_mem c hx))]

theorem splitAuthority_no_stop (l : JStr) (h : ∀ x ∈ l, x ≠ '/' ∧ x ≠ '?') :
    splitAuthority l = (l, []) := by
  induction l with
  | nil => rfl
  | cons c rest ih =>
    have hc := h c (List.mem_cons_self c rest)
    rw [splitAuthority, if_neg (by tauto),
      ih (fun x hx => h x (List.mem_cons_of_mem c hx))]

theorem splitAuthority_append (a : JStr) (x : Char) (b : JStr)
    (h : ∀ y ∈ a, y ≠ '/' ∧ y ≠ '?') (hx : x = '/' ∨ x = '?') :
    splitAuthority (a ++ x :: b) = (a, x :: b) := by
  induction a with
  | nil => simp [splitAuthority, hx]
  | cons c rest ih =>
    have hc := h c (List.mem_cons_self c rest)
    rw [List.cons_append, splitAuthority, if_neg (by tauto),
      ih (fun y hy => h y (List.mem_cons_of_mem c hy))]

theorem takeWhile_append_stop {p : Char → Bool} (a : JStr) (c : Char)
    (b : JStr) (ha : ∀ x ∈ a, p x = true) (hc : p c = false) :
    (a ++ c :: b).takeWhile p = a := by
  induction a with
  | nil => simp [List.takeWhile_cons, hc]
  | cons d rest ih =>
    rw [List.cons_append,
      List.takeWhile_cons_of_pos (ha d (List.mem_cons_self d rest)),
      ih (fun x hx => ha x (List.mem_cons_of_mem d hx))]

theorem dropWhile_append_stop {p : Char → Bool} (a : JStr) (c : Char)
    (b : JStr) (ha : ∀ x ∈ a, p x = true) (hc : p c = false) :
    (a ++ c :: b).dropWhile p = c :: b := by
  induction a with
  | nil => simp [List.dropWhile_cons, hc]
  | cons d rest ih =>
    rw [List.cons_append,
      List.dropWhile_cons_of_pos (by simp [ha d (List.mem_cons_self d rest)]),
      ih (fun x hx => ha x (List.mem_cons_of_mem d hx))]

theorem formDecode_eq_self (l : JStr)
    (h : ∀ x ∈ l, x ≠ '%' ∧ x ≠ '+') : formDecode l = l := by
  induction l with
  | nil => rfl
  | cons c rest ih =>
    have hc := h c (List.mem_cons_self c rest)
    have ihr := ih (fun x hx => h x (List.mem_cons_of_mem c hx))
    cases rest with
    | nil => simp [formDecode, hc.1, hc.2]
    | cons c1 rest1 =>
      cases rest1 with
      | nil => simp [formDecode, hc.1, hc.2, ihr]
      | cons c2 rest2 => simp [formDecode, hc.1, hc.2, ihr]

/- ### Idempotence of decomposition on its own `raw` field (C6) -/

theorem except_bind_ok {α β} (x : Except JsError α)
    (f : α → Except JsError β) (b : β) (h : (x >>= f) = .ok b) :
    ∃ a, x = .ok a ∧ f a = .ok b := by
  cases x with
  | error e => simp [Bind.bind, Except.bind] at h
  | ok a => exact ⟨a, rfl, by simpa [Bind.bind, Except.bind] using h⟩

theorem strictBuild_raw (schema : JStr) (parsed : JsURL) (trimmed : JStr)
    (r : FSParsedUrl) (h : strictBuild schema parsed trimmed = .ok r) :
    r.raw = trimmed := by
  unfold strictBuild at h
  obtain ⟨u, hu, h⟩ := except_bind_ok _ _ _ h
  obtain ⟨p, hp, h⟩ := except_bind_ok _ _ _ h
  cases h
  rfl

theorem fallbackBuild_raw (schema : JStr) (afterSchema : JStr)
    (trimmed : JStr) (r : FSParsedUrl)
    (h : fallbackBuild schema afterSchema trimmed = .ok r) :
    r.raw = trimmed := by
  unfold fallbackBuild at h
  obtain ⟨a, ha, h⟩ := except_bind_ok _ _ _ h
  cases h
  rfl

theorem schemeSplit_nil : schemeSplit [] = none := rfl

/-- Idempotence, generically in the strict parser: a successful
decomposition records the trimmed input in `raw`, and re-decomposing
`raw` reproduces the identical record. -/
theorem parseFSUrlWith_idem (strict : JStr → Option JsURL) (raw : JStr)
    (r : FSParsedUrl) (h : parseFSUrlWith strict raw = .ok r) :
    parseFSUrlWith strict r.raw = .ok r := by
  unfold parseFSUrlWith at h ⊢
  by_cases he : raw.isEmpty = true
  · rw [if_pos he] at h
    exact absurd h (by simp)
  · rw [if_neg he] at h
    simp only at h
    cases hss : schemeSplit (jsTrim raw) with
    | none =>
      rw [hss] at h
      exact absurd h (by simp)
    | some sr =>
      rw [hss] at h
      simp only at h
      have hraw : r.raw = jsTrim raw := by
        cases hst : strict (jstr "https://" ++ sr.2) with
        | some parsed =>
          rw [hst] at h
          simp only at h
          exact strictBuild_raw _ _ _ _ h
        | none =>
          rw [hst] at h
          simp only at h
          exact fallbackBuild_raw _ _ _ _ h
      have htne : jsTrim raw ≠ [] := by
        intro hcon
        rw [hcon, schemeSplit_nil] at hss
        exact Option.noConfusion hss
      have hie : (jsTrim raw).isEmpty = false := by
        cases htrim : jsTrim raw with
        | nil => exact absurd htrim htne
        | cons a l => rfl
      rw [hraw, if_neg (by simp [hie])]
      simp only [jsTrim_idem, hss]
      exact h

/-- C6: decomposition is idempotent on its own `raw` field — for every
input string accepted by `parseFSUrl`, decomposing the `raw` field of
the result succeeds and yields a structure identical to the first
result in every field. -/
theorem parseFSUrl_idempotent (raw : JStr) (r : FSParsedUrl)
    (h : parseFSUrl raw = .ok r) : parseFSUrl r.raw = .ok r :=
  parseFSUrlWith_idem urlStrictModel raw r h

/-- C6 witness: a concrete input with surrounding whitespace. -/
theorem parseFSUrl_idempotent_witness :
    parseFSUrl (jstr " x://h/a ") =
      .ok ⟨jstr "x", some (jstr "h"), none, none, none, some (jstr "a"),
        [jstr "a"], [], jstr "x://h/a"⟩ ∧
    parseFSUrl (FSParsedUrl.raw ⟨jstr "x", some (jstr "h"), none, none, none,
        some (jstr "a"), [jstr "a"], [], jstr "x://h/a"⟩) =
      .ok ⟨jstr "x", some (jstr "h"), none, none, none, some (jstr "a"),
        [jstr "a"], [], jstr "x://h/a"⟩ :=
  ⟨by decide, parseFSUrl_idempotent (jstr " x://h/a ") _ (by decide)⟩

/- ### Error classification of the decomposer (C7) -/

theorem except_map_err {α β} {x : Except JsError α} {f : α → β} {e : JsError}
    (h : x.map f = .error e) : x = .error e := by
  cases x with
  | error e' =>
    have he : e' = e := by simpa [Except.map] using h
    rw [he]
  | ok a => simp [Except.map] at h

theorem decodeURIComponentE_err :
    ∀ (s : JStr) (e : JsError), decodeURIComponentE s = .error e →
      e = .uriError := by
  suffices H : ∀ n (s : JStr), s.length ≤ n → ∀ e,
      decodeURIComponentE s = .error e → e = .uriError from
    fun s e h => H s.length s le_rfl e h
  intro n
  induction n with
  | zero =>
    intro s hlen e h
    cases s with
    | nil => simp [decodeURIComponentE] at h
    | cons c rest => simp at hlen
  | succ n ih =>
    intro s hlen e h
    cases s with
    | nil => simp [decodeURIComponentE] at h
    | cons c rest =>
      by_cases hc : c = '%'
      · subst hc
        cases rest with
        | nil =>
          simp [decodeURIComponentE] at h
          exact h.symm
        | cons c1 rest1 =>
          cases rest1 with
          | nil =>
            simp [decodeURIComponentE] at h
            exact h.symm
          | cons c2 rest2 =>
            simp only [decodeURIComponentE] at h
            cases hv1 : hexVal c1 with
            | none =>
              rw [hv1] at h
              simp at h
              exact h.symm
            | some a =>
              cases hv2 : hexVal c2 with
              | none =>
                rw [hv1, hv2] at h
                simp at h
                exact h.symm
              | some b =>
                rw [hv1, hv2] at h
                dsimp only at h
                by_cases hlt : a * 16 + b < 128
                · rw [if_pos hlt] at h
                  refine ih rest2 ?_ e (except_map_err h)
                  simp only [List.length_cons] at hlen
                  omega
                · rw [if_neg hlt] at h
                  injection h with h2
                  exact h2.symm
      · have hstep : decodeURIComponentE (c :: rest) =
            (decodeURIComponentE rest).map (fun t => c :: t) := by
          cases rest with
          | nil => simp [decodeURIComponentE, hc]
          | cons c1 rest1 =>
            cases rest1 with
            | nil => simp [decodeURIComponentE, hc]
            | cons c2 rest2 => simp [decodeURIComponentE, hc]
        rw [hstep] at h
        refine ih rest ?_ e (except_map_err h)
        simp only [List.length_cons] at hlen
        omega

theorem except_bind_err {α β} {x : Except JsError α}
    {f : α → Except JsError β} {e : JsError} (h : (x >>= f) = .error e) :
    x = .error e ∨ ∃ a, x = .ok a ∧ f a = .error e := by
  cases x with
  | error e' =>
    left
    simpa [Bind.bind, Except.bind] using h
  | ok a =>
    right
    exact ⟨a, rfl, by simpa [Bind.bind, Except.bind] using h⟩

theorem decodeOptional_err {s : JStr} {e : JsError}
    (h : decodeOptional s = .error e) : e = .uriError := by
  unfold decodeOptional at h
  split at h
  · simp [pure, Except.pure] at h
  · exact decodeURIComponentE_err s e (except_map_err h)

theorem fallbackCreds_err {a : JStr} {e : JsError}
    (h : fallbackCreds a = .error e) : e = .uriError := by
  unfold fallbackCreds at h
  split at h
  · rcases except_bind_err h with h1 | ⟨u, _, h1⟩
    · exact decodeOptional_err h1
    · rcases except_bind_err h1 with h2 | ⟨p, _, h2⟩
      · cases hp : (jsSplit ':' a)[1]? with
        | none => rw [hp] at h2; simp [pure, Except.pure] at h2
        | some pw => rw [hp] at h2; exact decodeOptional_err h2
      · simp [pure, Except.pure] at h2
  · rcases except_bind_err h with h1 | ⟨u, _, h1⟩
    · exact decodeOptional_err h1
    · simp [pure, Except.pure] at h1

theorem fallbackAuth_err {fs : JStr} {e : JsError}
    (h : fallbackAuth fs = .error e) : e = .uriError := by
  unfold fallbackAuth at h
  split at h
  · rcases except_bind_err h with h1 | ⟨up, _, h1⟩
    · exact fallbackCreds_err h1
    · simp [pure, Except.pure] at h1
  · simp [pure, Except.pure] at h

theorem strictBuild_err {schema : JStr} {parsed : JsURL} {trimmed : JStr}
    {e : JsError} (h : strictBuild schema parsed trimmed = .error e) :
    e = .uriError := by
  unfold strictBuild at h
  rcases except_bind_err h with h1 | ⟨u, _, h1⟩
  · exact decodeOptional_err h1
  · rcases except_bind_err h1 with h2 | ⟨p, _, h2⟩
    · exact decodeOptional_err h2
    · simp at h2

theorem fallbackBuild_err {schema : JStr} {afterSchema : JStr}
    {trimmed : JStr} {e : JsError}
    (h : fallbackBuild schema afterSchema trimmed = .error e) :
    e = .uriError := by
  unfold fallbackBuild at h
  rcases except_bind_err h with h1 | ⟨a, _, h1⟩
  · exact fallbackAuth_err h1
  · simp at h1

/-- Every thrown error of `parseFSUrl` is either the `FSParseError` of
the two guard checks or the `URIError` of credential decoding. -/
theorem parseFSUrlWith_err (strict : JStr → Option JsURL) (raw : JStr)
    (e : JsError) (h : parseFSUrlWith strict raw = .error e) :
    (∃ m u, e = .parseError m u) ∨ e = .uriError := by
  unfold parseFSUrlWith at h
  by_cases he : raw.isEmpty = true
  · rw [if_pos he] at h
    injection h with h2
    exact Or.inl ⟨_, _, h2.symm⟩
  · rw [if_neg he] at h
    simp only at h
    cases hss : schemeSplit (jsTrim raw) with
    | none =>
      rw [hss] at h
      injection h with h2
      exact Or.inl ⟨_, _, h2.symm⟩
    | some sr =>
      rw [hss] at h
      simp only at h
      cases hst : strict (jstr "https://" ++ sr.2) with
      | some parsed =>
        rw [hst] at h
        simp only at h
        exact Or.inr (strictBuild_err h)
      | none =>
        rw [hst] at h
        simp only at h
        exact Or.inr (fallbackBuild_err h)

/-- `parseFSUrl` throws `FSParseError` exactly on an empty input, a
whitespace-only input, or an input whose trimmed form lacks a
`scheme://` prefix. -/
theorem parseFSUrlWith_parseError_iff (strict : JStr → Option JsURL)
    (raw : JStr) :
    (∃ m u, parseFSUrlWith strict raw = .error (.parseError m u)) ↔
      (raw = [] ∨ jsTrim raw = [] ∨ schemeSplit (jsTrim raw) = none) := by
  constructor
  · rintro ⟨m, u, h⟩
    by_cases hr : raw = []
    · exact Or.inl hr
    · right
      by_cases hss : schemeSplit (jsTrim raw) = none
      · exact Or.inr hss
      · exfalso
        unfold parseFSUrlWith at h
        have hie : raw.isEmpty = false := by
          cases raw with
          | nil => exact absurd rfl hr
          | cons a l => rfl
        rw [if_neg (by simp [hie])] at h
        simp only at h
        cases hsr : schemeSplit (jsTrim raw) with
        | none => exact hss hsr
        | some sr =>
          rw [hsr] at h
          simp only at h
          cases hst : strict (jstr "https://" ++ sr.2) with
          | some parsed =>
            rw [hst] at h
            simp only at h
            exact JsError.noConfusion (strictBuild_err h)
          | none =>
            rw [hst] at h
            simp only at h
            exact JsError.noConfusion (fallbackBuild_err h)
  · intro h
    unfold parseFSUrlWith
    rcases h with h | h | h
    · rw [if_pos (by simp [h])]
      exact ⟨_, _, rfl⟩
    · by_cases hr : raw.isEmpty = true
      · rw [if_pos hr]
        exact ⟨_, _, rfl⟩
      · rw [if_neg hr]
        simp only [h, schemeSplit_nil]
        exact ⟨_, _, rfl⟩
    · by_cases hr : raw.isEmpty = true
      · rw [if_pos hr]
        exact ⟨_, _, rfl⟩
      · rw [if_neg hr]
        simp only [h]
        exact ⟨_, _, rfl⟩

/- ### Strict-model acceptance on the safe fragment (towards C5) -/

theorem list_isPrefixOf_append (l r : JStr) : l.isPrefixOf (l ++ r) = true := by
  induction l with
  | nil => simp
  | cons c cs ih => simp [List.isPrefixOf_cons₂_self, ih]

theorem drop_len_append (l r : JStr) : (l ++ r).drop l.length = r := by
  simp

theorem token_parts {s : JStr} (h : isToken s = true) :
    s ≠ [] ∧ ∀ c ∈ s, isTokenChar c = true := by
  have h2 := h
  simp only [isToken, Bool.and_eq_true, Bool.not_eq_true',
    List.isEmpty_eq_false, List.all_eq_true] at h2
  exact h2

theorem hostToken_parts {s : JStr} (h : isHostToken s = true) :
    s ≠ [] ∧ ∀ c ∈ s, isLowerAlphaChar c = true := by
  have h2 := h
  simp only [isHostToken, Bool.and_eq_true, Bool.not_eq_true',
    List.isEmpty_eq_false, List.all_eq_true] at h2
  exact h2

theorem isEmpty_false_of_ne_nil {s : JStr} (h : s ≠ []) : s.isEmpty = false := by
  cases s with
  | nil => exact absurd rfl h
  | cons a l => rfl

theorem hostOk_of_token {h : JStr} (hh : isHostToken h = true) :
    hostOk h = true := by
  obtain ⟨hne, hall⟩ := hostToken_parts hh
  have hdot : ∀ c ∈ h, c ≠ '.' :=
    fun c hc => char_class_ne (hall c hc) (by decide)
  have hsplit : jsSplit '.' h = [h] := jsSplit_no_sep '.' h hdot
  unfold hostOk
  rw [hsplit]
  have h1 : h.isEmpty = false := isEmpty_false_of_ne_nil hne
  have h2 : h.all isHostChar = true := by
    simp only [List.all_eq_true]
    intro c hc
    simp [isHostChar, hall c hc]
  have h3 : h.any isLowerAlphaChar = true := by
    cases hcase : h with
    | nil => exact absurd hcase hne
    | cons c t =>
      simp only [List.any_cons, Bool.or_eq_true]
      exact Or.inl (hall c (by rw [hcase]; exact List.mem_cons_self c t))
  simp [h1, h2, h3]

/-- The strict model accepts `https://host[:port]` followed by a
path/query tail it can split, producing no credentials, the verbatim
host, and the `URL`-normalized port field. -/
theorem urlStrictModel_fragment (host portTail pathq pathname query : JStr)
    (hh : isHostToken host = true)
    (hp : portTail = [] ∨ ∃ ds, portTail = ':' :: ds ∧ ds ≠ [] ∧
      ds.all isDigitChar = true ∧ digitsToNat ds < 65536)
    (hq : pathSearch pathq = some (pathname, query))
    (hnr : ∀ c ∈ host ++ portTail ++ pathq, isRejectChar c = false)
    (hstops : ∀ c ∈ host ++ portTail, c ≠ '/' ∧ c ≠ '?')
    (hpq : pathq = [] ∨ (∃ t, pathq = '/' :: t) ∨ (∃ t, pathq = '?' :: t)) :
    ∃ portField, urlStrictModel (jstr "https://" ++ (host ++ portTail ++ pathq)) =
      some ⟨host, portField, [], [], pathname, query⟩ := by
  obtain ⟨hne, hall⟩ := hostToken_parts hh
  have hdrop : (jstr "https://" ++ (host ++ portTail ++ pathq)).drop 8 =
      host ++ portTail ++ pathq := by
    have h8 : (8 : Nat) = (jstr "https://").length := rfl
    rw [h8, drop_len_append]
  have hanyr : (host ++ portTail ++ pathq).any isRejectChar = false := by
    simp only [List.any_eq_false]
    intro c hc
    simp [hnr c hc]
  have hauth : splitAuthority (host ++ portTail ++ pathq) =
      (host ++ portTail, pathq) := by
    rcases hpq with hpq | ⟨t, hpq⟩ | ⟨t, hpq⟩
    · rw [hpq, List.append_nil]
      exact splitAuthority_no_stop _ hstops
    · rw [hpq]
      exact splitAuthority_append (host ++ portTail) '/' t hstops (Or.inl rfl)
    · rw [hpq]
      exact splitAuthority_append (host ++ portTail) '?' t hstops (Or.inr rfl)
  have hhostcolon : ∀ c ∈ host, c ≠ ':' :=
    fun c hc => char_class_ne (hall c hc) (by decide)
  rcases hp with hp | ⟨ds, hp, hds1, hds2, hds3⟩
  · have hsf : splitFirst ':' (host ++ portTail) = (host, none) := by
      rw [hp, List.append_nil]
      exact splitFirst_no_sep ':' host hhostcolon
    refine ⟨[], ?_⟩
    unfold urlStrictModel
    rw [if_pos (list_isPrefixOf_append _ _), hdrop]
    simp only [hanyr, Bool.false_eq_true, if_false, hauth, hsf,
      hostOk_of_token hh, if_true, hq]
    rfl
  · have hsf : splitFirst ':' (host ++ portTail) = (host, some ds) := by
      rw [hp]
      exact splitFirst_append ':' host ds hhostcolon
    refine ⟨if digitsToNat ds = 443 then [] else Nat.toDigits 10 (digitsToNat ds), ?_⟩
    unfold urlStrictModel
    rw [if_pos (list_isPrefixOf_append _ _), hdrop]
    have hdse : ds.isEmpty = false := isEmpty_false_of_ne_nil hds1
    simp only [hanyr, Bool.false_eq_true, if_false, hauth, hsf,
      hostOk_of_token hh, if_true, hdse, hds2, Bool.not_false, Bool.and_self,
      if_pos hds3, hq]
    rfl

theorem token_not_dot {s : JStr} (h : isToken s = true) :
    (s == jstr ".") = false ∧ (s == jstr "..") = false := by
  obtain ⟨hne, hall⟩ := token_parts h
  constructor
  · rw [beq_eq_false_iff_ne]
    intro he
    have : isTokenChar '.' = true := hall '.' (by rw [he]; decide)
    exact absurd this (by decide)
  · rw [beq_eq_false_iff_ne]
    intro he
    have : isTokenChar '.' = true := hall '.' (by rw [he]; decide)
    exact absurd this (by decide)

theorem jsSplit_two_tokens (seg1 seg2 : JStr)
    (h1 : isToken seg1 = true) (h2 : isToken seg2 = true) :
    jsSplit '/' (seg1 ++ '/' :: seg2) = [seg1, seg2] := by
  obtain ⟨_, ha1⟩ := token_parts h1
  obtain ⟨_, ha2⟩ := token_parts h2
  rw [jsSplit_append_sep '/' seg1 seg2
    (fun c hc => char_class_ne (ha1 c hc) (by decide))]
  rw [jsSplit_no_sep '/' seg2
    (fun c hc => char_class_ne (ha2 c hc) (by decide))]

theorem dotFreeSegments_fragment (seg1 seg2 : JStr)
    (h1 : isToken seg1 = true) (h2 : isToken seg2 = true) :
    dotFreeSegments (('/' :: seg1) ++ ('/' :: seg2)) = true := by
  unfold dotFreeSegments
  have hshape : ('/' :: seg1) ++ ('/' :: seg2) = '/' :: (seg1 ++ '/' :: seg2) := by
    simp
  rw [hshape, jsSplit_cons_sep, jsSplit_two_tokens seg1 seg2 h1 h2]
  obtain ⟨hd1a, hd1b⟩ := token_not_dot h1
  obtain ⟨hd2a, hd2b⟩ := token_not_dot h2
  simp [hd1a, hd1b, hd2a, hd2b]
  exact ⟨by decide, by decide⟩

theorem pathSearch_fragment (seg1 seg2 query : JStr)
    (h1 : isToken seg1 = true) (h2 : isToken seg2 = true) :
    pathSearch (('/' :: seg1) ++ ('/' :: seg2) ++ ('?' :: query)) =
      some (('/' :: seg1) ++ ('/' :: seg2), query) := by
  obtain ⟨hne1, ha1⟩ := token_parts h1
  obtain ⟨hne2, ha2⟩ := token_parts h2
  have hnq : ∀ c ∈ ('/' :: seg1) ++ ('/' :: seg2), c ≠ '?' := by
    intro c hc
    simp only [List.mem_append, List.mem_cons] at hc
    rcases hc with (hc | hc) | (hc | hc)
    · subst hc; decide
    · exact char_class_ne (ha1 c hc) (by decide)
    · subst hc; decide
    · exact char_class_ne (ha2 c hc) (by decide)
  have hsf := splitFirst_append '?' (('/' :: seg1) ++ ('/' :: seg2)) query hnq
  have hshape : ('/' :: seg1) ++ ('/' :: seg2) ++ ('?' :: query) =
      '/' :: (seg1 ++ ('/' :: seg2) ++ ('?' :: query)) := by
    simp [List.append_assoc]
  rw [hshape] at hsf ⊢
  rw [pathSearch]
  simp only [hsf, dotFreeSegments_fragment seg1 seg2 h1 h2]
  simp

theorem schemeSplit_append (scheme rest : JStr)
    (hs : isSchemeName scheme = true) :
    schemeSplit (scheme ++ jstr "://" ++ rest) = some (scheme, rest) := by
  cases scheme with
  | nil => simp [isSchemeName] at hs
  | cons c cs =>
    simp only [isSchemeName, Bool.and_eq_true, List.all_eq_true] at hs
    obtain ⟨hc, hcs⟩ := hs
    have hform : (c :: cs) ++ jstr "://" ++ rest =
        c :: (cs ++ ':' :: '/' :: '/' :: rest) := by
      have h3 : jstr "://" = [':', '/', '/'] := rfl
      simp [h3, List.append_assoc]
    have htw : (cs ++ ':' :: '/' :: '/' :: rest).takeWhile isSchemeTailChar = cs :=
      takeWhile_append_stop cs ':' _ hcs (by decide)
    have hdw : (cs ++ ':' :: '/' :: '/' :: rest).dropWhile isSchemeTailChar =
        ':' :: '/' :: '/' :: rest :=
      dropWhile_append_stop cs ':' _ hcs (by decide)
    rw [hform, schemeSplit]
    simp [hc, htw, hdw]

theorem formDecode_token {s : JStr} (h : isToken s = true) :
    formDecode s = s := by
  obtain ⟨_, hall⟩ := token_parts h
  exact formDecode_eq_self s (fun c hc =>
    ⟨char_class_ne (hall c hc) (by decide), char_class_ne (hall c hc) (by decide)⟩)

/-- Query-pair parsing of `k=v1&k=v2` over the safe alphabet. -/
theorem urlSearchParamsPairs_fragment (k v1 v2 : JStr)
    (hk : isToken k = true) (hv1 : isToken v1 = true) (hv2 : isToken v2 = true) :
    urlSearchParamsPairs (k ++ '=' :: v1 ++ '&' :: k ++ '=' :: v2) =
      [(k, v1), (k, v2)] := by
  obtain ⟨hknil, hka⟩ := token_parts hk
  obtain ⟨_, hv1a⟩ := token_parts hv1
  obtain ⟨_, hv2a⟩ := token_parts hv2
  have hamp1 : ∀ c ∈ k ++ '=' :: v1, c ≠ '&' := by
    intro c hc
    rcases List.mem_append.mp hc with hc | hc
    · exact char_class_ne (hka c hc) (by decide)
    · rcases List.mem_cons.mp hc with hc | hc
      · subst hc; decide
      · exact char_class_ne (hv1a c hc) (by decide)
  have hamp2 : ∀ c ∈ k ++ '=' :: v2, c ≠ '&' := by
    intro c hc
    rcases List.mem_append.mp hc with hc | hc
    · exact char_class_ne (hka c hc) (by decide)
    · rcases List.mem_cons.mp hc with hc | hc
      · subst hc; decide
      · exact char_class_ne (hv2a c hc) (by decide)
  have hkeq : ∀ c ∈ k, c ≠ '=' :=
    fun c hc => char_class_ne (hka c hc) (by decide)
  have hshape : k ++ '=' :: v1 ++ '&' :: k ++ '=' :: v2 =
      (k ++ '=' :: v1) ++ '&' :: (k ++ '=' :: v2) := by
    simp [List.append_assoc]
  rw [hshape]
  unfold urlSearchParamsPairs
  rw [jsSplit_append_sep '&' _ _ hamp1, jsSplit_no_sep '&' _ hamp2]
  have hp1 : (k ++ '=' :: v1).isEmpty = false :=
    isEmpty_false_of_ne_nil (by simp)
  have hp2 : (k ++ '=' :: v2).isEmpty = false :=
    isEmpty_false_of_ne_nil (by simp)
  rw [List.filterMap_cons, List.filterMap_cons, List.filterMap_nil]
  simp only [hp1, hp2, Bool.false_eq_true, if_false,
    splitFirst_append '=' k v1 hkeq, splitFirst_append '=' k v2 hkeq,
    formDecode_token hk, formDecode_token hv1, formDecode_token hv2,
    Option.getD]

/-- The shared record construction of the strict branch, evaluated at a
credential-free parse. -/
theorem strictBuild_compute (schema hostv portF pn q trimmed : JStr) :
    strictBuild schema ⟨hostv, portF, [], [], pn, q⟩ trimmed = .ok
      { schema := schema,
        hostname := if hostv.isEmpty then none else some hostv,
        port := if portF.isEmpty then none else parseIntJS portF,
        username := none, password := none,
        path := if (pn.drop 1).isEmpty then none else some (pn.drop 1),
        segments := (jsSplit '/' (pn.drop 1)).filter (fun s => !s.isEmpty),
        params := collapseParams (urlSearchParamsPairs q),
        raw := trimmed } := rfl

theorem forall_mem_append {P : Char → Prop} {a b : JStr}
    (ha : ∀ c ∈ a, P c) (hb : ∀ c ∈ b, P c) : ∀ c ∈ a ++ b, P c :=
  fun c hc => (List.mem_append.mp hc).elim (ha c) (hb c)

theorem forall_mem_cons {P : Char → Prop} {x : Char} {a : JStr}
    (hx : P x) (ha : ∀ c ∈ a, P c) : ∀ c ∈ x :: a, P c := by
  intro c hc
  rcases List.mem_cons.mp hc with hc | hc
  · exact hc ▸ hx
  · exact ha c hc

/-- A `scheme://host[:port]/seg1/seg2?k=v1&k=v2` input over the safe
alphabets. -/
def mkUrl (scheme host portTail seg1 seg2 k v1 v2 : JStr) : JStr :=
  scheme ++ jstr "://" ++ host ++ portTail ++ jstr "/" ++ seg1 ++ jstr "/" ++
    seg2 ++ jstr "?" ++ k ++ jstr "=" ++ v1 ++ jstr "&" ++ k ++ jstr "=" ++ v2

/-- C5: on every valid `scheme://host[:port]/seg1/seg2?k=v1&k=v2` input
(over the modelled strict-parser fragment: lower-case alphabetic host,
lower-case alphanumeric segments, key and values, optional valid decimal
port), decomposition succeeds and yields `segments = [seg1, seg2]` in
order (empty segments dropped) and `params.k = [v1, v2]`, the repeated
query key collapsing into a list in first-seen order. -/
theorem parseFSUrl_segments_params
    (scheme host portTail seg1 seg2 k v1 v2 : JStr)
    (hs : isSchemeName scheme = true) (hh : isHostToken host = true)
    (hp : portTail = [] ∨ ∃ ds, portTail = ':' :: ds ∧ ds ≠ [] ∧
      ds.all isDigitChar = true ∧ digitsToNat ds < 65536)
    (h1 : isToken seg1 = true) (h2 : isToken seg2 = true)
    (hk : isToken k = true) (hv1 : isToken v1 = true)
    (hv2 : isToken v2 = true) :
    ∃ r, parseFSUrl (mkUrl scheme host portTail seg1 seg2 k v1 v2) = .ok r ∧
      r.segments = [seg1, seg2] ∧
      lookupParam r.params k = some (ParamVal.many [v1, v2]) := by
  obtain ⟨hhne, hha⟩ := hostToken_parts hh
  obtain ⟨_, h1a⟩ := token_parts h1
  obtain ⟨_, h2a⟩ := token_parts h2
  obtain ⟨_, hka⟩ := token_parts hk
  obtain ⟨_, hv1a⟩ := token_parts hv1
  obtain ⟨_, hv2a⟩ := token_parts hv2
  have hptc : ∀ c ∈ portTail, c = ':' ∨ isDigitChar c = true := by
    rcases hp with hp | ⟨ds, hp, _, hds2, _⟩
    · rw [hp]; intro c hc; exact absurd hc (List.not_mem_nil c)
    · rw [hp]
      intro c hc
      rcases List.mem_cons.mp hc with hc | hc
      · exact Or.inl hc
      · exact Or.inr (by
          have := List.all_eq_true.mp hds2
          exact this c hc)
  -- the query and path/query tail
  set query := k ++ '=' :: v1 ++ '&' :: k ++ '=' :: v2 with hquery
  set pathq := ('/' :: seg1) ++ ('/' :: seg2) ++ ('?' :: query) with hpathq
  have hfact : mkUrl scheme host portTail seg1 seg2 k v1 v2 =
      scheme ++ jstr "://" ++ (host ++ portTail ++ pathq) := by
    have hA : jstr "/" = ['/'] := rfl
    have hB : jstr "?" = ['?'] := rfl
    have hC : jstr "=" = ['='] := rfl
    have hD : jstr "&" = ['&'] := rfl
    simp [mkUrl, hpathq, hquery, hA, hB, hC, hD, List.append_assoc]
  -- character facts
  have hqws : ∀ c ∈ query, isWsChar c = false := by
    rw [hquery]
    refine forall_mem_append (forall_mem_append (forall_mem_append ?_ ?_) ?_) ?_
    · exact fun c hc => tokenChar_notWs (hka c hc)
    · exact forall_mem_cons (by decide) (fun c hc => tokenChar_notWs (hv1a c hc))
    · exact forall_mem_cons (by decide) (fun c hc => tokenChar_notWs (hka c hc))
    · exact forall_mem_cons (by decide) (fun c hc => tokenChar_notWs (hv2a c hc))
  have hqrej : ∀ c ∈ query, isRejectChar c = false := by
    rw [hquery]
    refine forall_mem_append (forall_mem_append (forall_mem_append ?_ ?_) ?_) ?_
    · exact fun c hc => tokenChar_notReject (hka c hc)
    · exact forall_mem_cons (by decide)
        (fun c hc => tokenChar_notReject (hv1a c hc))
    · exact forall_mem_cons (by decide)
        (fun c hc => tokenChar_notReject (hka c hc))
    · exact forall_mem_cons (by decide)
        (fun c hc => tokenChar_notReject (hv2a c hc))
  have hpqws : ∀ c ∈ pathq, isWsChar c = false := by
    rw [hpathq]
    refine forall_mem_append (forall_mem_append ?_ ?_) ?_
    · exact forall_mem_cons (by decide) (fun c hc => tokenChar_notWs (h1a c hc))
    · exact forall_mem_cons (by decide) (fun c hc => tokenChar_notWs (h2a c hc))
    · exact forall_mem_cons (by decide) hqws
  have hpqrej : ∀ c ∈ pathq, isRejectChar c = false := by
    rw [hpathq]
    refine forall_mem_append (forall_mem_append ?_ ?_) ?_
    · exact forall_mem_cons (by decide)
        (fun c hc => tokenChar_notReject (h1a c hc))
    · exact forall_mem_cons (by decide)
        (fun c hc => tokenChar_notReject (h2a c hc))
    · exact forall_mem_cons (by decide) hqrej
  have hptws : ∀ c ∈ portTail, isWsChar c = false := by
    intro c hc
    rcases hptc c hc with hc2 | hc2
    · subst hc2; decide
    · exact digitChar_notWs hc2
  have hptrej : ∀ c ∈ portTail, isRejectChar c = false := by
    intro c hc
    rcases hptc c hc with hc2 | hc2
    · subst hc2; decide
    · exact digitChar_notReject hc2
  have hnr : ∀ c ∈ host ++ portTail ++ pathq, isRejectChar c = false :=
    forall_mem_append (forall_mem_append
      (fun c hc => lowerChar_notReject (hha c hc)) hptrej) hpqrej
  have hstops : ∀ c ∈ host ++ portTail, c ≠ '/' ∧ c ≠ '?' := by
    refine forall_mem_append ?_ ?_
    · exact fun c hc => ⟨char_class_ne (hha c hc) (by decide),
        char_class_ne (hha c hc) (by decide)⟩
    · intro c hc
      rcases hptc c hc with hc2 | hc2
      · subst hc2; exact ⟨by decide, by decide⟩
      · exact ⟨char_class_ne hc2 (by decide), char_class_ne hc2 (by decide)⟩
  have hmkws : ∀ c ∈ mkUrl scheme host portTail seg1 seg2 k v1 v2,
      isWsChar c = false := by
    rw [hfact]
    refine forall_mem_append (forall_mem_append ?_ ?_)
      (forall_mem_append (forall_mem_append
        (fun c hc => lowerChar_notWs (hha c hc)) hptws) hpqws)
    · cases scheme with
      | nil => simp [isSchemeName] at hs
      | cons c0 cs =>
        simp only [isSchemeName, Bool.and_eq_true, List.all_eq_true] at hs
        exact forall_mem_cons (alphaChar_notWs hs.1)
          (fun c hc => schemeTailChar_notWs (hs.2 c hc))
    · intro c hc
      have h3 : jstr "://" = [':', '/', '/'] := rfl
      rw [h3] at hc
      rcases List.mem_cons.mp hc with hc | hc
      · subst hc; decide
      · rcases List.mem_cons.mp hc with hc | hc
        · subst hc; decide
        · rcases List.mem_cons.mp hc with hc | hc
          · subst hc; decide
          · exact absurd hc (List.not_mem_nil c)
  -- assemble the parse
  have hmkne : mkUrl scheme host portTail seg1 seg2 k v1 v2 ≠ [] := by
    rw [hfact]
    cases scheme with
    | nil => simp [isSchemeName] at hs
    | cons c0 cs => simp
  have htrim : jsTrim (mkUrl scheme host portTail seg1 seg2 k v1 v2) =
      mkUrl scheme host portTail seg1 seg2 k v1 v2 :=
    jsTrim_eq_self_of_no_ws _ hmkws
  obtain ⟨portF, hstrict⟩ := urlStrictModel_fragment host portTail pathq
    (('/' :: seg1) ++ ('/' :: seg2)) query hh hp
    (by rw [hpathq]; exact pathSearch_fragment seg1 seg2 query h1 h2)
    hnr hstops (Or.inr (Or.inl ⟨seg1 ++ ('/' :: seg2) ++ ('?' :: query), by
      rw [hpathq]; simp [List.append_assoc]⟩))
  have hparse : parseFSUrl (mkUrl scheme host portTail seg1 seg2 k v1 v2) =
      .ok { schema := lowerStr scheme,
            hostname := if host.isEmpty then none else some host,
            port := if portF.isEmpty then none else parseIntJS portF,
            username := none, password := none,
            path := if ((('/' :: seg1) ++ ('/' :: seg2) : JStr).drop 1).isEmpty
              then none
              else some ((('/' :: seg1) ++ ('/' :: seg2) : JStr).drop 1),
            segments := (jsSplit '/'
              ((('/' :: seg1) ++ ('/' :: seg2) : JStr).drop 1)).filter
              (fun s => !s.isEmpty),
            params := collapseParams (urlSearchParamsPairs query),
            raw := scheme ++ jstr "://" ++ (host ++ portTail ++ pathq) } := by
    unfold parseFSUrl parseFSUrlWith
    rw [if_neg (by simp [isEmpty_false_of_ne_nil hmkne])]
    simp only [htrim]
    rw [hfact, schemeSplit_append scheme _ hs]
    simp only
    rw [hstrict]
    simp only
    exact strictBuild_compute _ _ _ _ _ _
  refine ⟨_, hparse, ?_, ?_⟩
  · simp only
    have hdrop : ((('/' :: seg1) ++ ('/' :: seg2) : JStr).drop 1) =
        seg1 ++ '/' :: seg2 := by simp
    rw [hdrop, jsSplit_two_tokens seg1 seg2 h1 h2]
    simp [isEmpty_false_of_ne_nil (token_parts h1).1,
      isEmpty_false_of_ne_nil (token_parts h2).1]
  · simp only
    rw [hquery, urlSearchParamsPairs_fragment k v1 v2 hk hv1 hv2]
    simp [collapseParams, insertParam, lookupParam]

/-- C5 witness: `ntfy://h/a/b?k=v1&k=v2`. -/
theorem parseFSUrl_segments_params_witness :
    isSchemeName (jstr "ntfy") = true ∧ isHostToken (jstr "h") = true ∧
    isToken (jstr "a") = true ∧ isToken (jstr "b") = true ∧
    isToken (jstr "k") = true ∧ isToken (jstr "v1") = true ∧
    isToken (jstr "v2") = true ∧
    ∃ r, parseFSUrl (mkUrl (jstr "ntfy") (jstr "h") [] (jstr "a") (jstr "b")
        (jstr "k") (jstr "v1") (jstr "v2")) = .ok r ∧
      r.segments = [jstr "a", jstr "b"] ∧
      lookupParam r.params (jstr "k") = some (ParamVal.many [jstr "v1", jstr "v2"]) :=
  ⟨by decide, by decide, by decide, by decide, by decide, by decide, by decide,
   parseFSUrl_segments_params (jstr "ntfy") (jstr "h") [] (jstr "a") (jstr "b")
     (jstr "k") (jstr "v1") (jstr "v2") (by decide) (by decide) (Or.inl rfl)
     (by decide) (by decide) (by decide) (by decide) (by decide)⟩

/- ### Failure modes of the decomposer (C7) -/

theorem parseFSUrl_bare_host (scheme host : JStr)
    (hs : isSchemeName scheme = true) (hh : isHostToken host = true) :
    ∃ r, parseFSUrl (scheme ++ jstr "://" ++ host) = .ok r ∧
      r.segments = [] := by
  obtain ⟨hhne, hha⟩ := hostToken_parts hh
  obtain ⟨portF, hstrict⟩ := urlStrictModel_fragment host [] [] (jstr "/") []
    hh (Or.inl rfl) rfl
    (by
      intro c hc
      simp only [List.append_nil] at hc
      exact lowerChar_notReject (hha c hc))
    (by
      intro c hc
      simp only [List.append_nil] at hc
      exact ⟨char_class_ne (hha c hc) (by decide),
        char_class_ne (hha c hc) (by decide)⟩)
    (Or.inl rfl)
  rw [List.append_nil, List.append_nil] at hstrict
  have hne : scheme ++ jstr "://" ++ host ≠ [] := by
    cases scheme with
    | nil => simp [isSchemeName] at hs
    | cons c cs => simp
  have hws : ∀ c ∈ scheme ++ jstr "://" ++ host, isWsChar c = false := by
    refine forall_mem_append (forall_mem_append ?_ ?_)
      (fun c hc => lowerChar_notWs (hha c hc))
    · cases scheme with
      | nil => simp [isSchemeName] at hs
      | cons c0 cs =>
        simp only [isSchemeName, Bool.and_eq_true, List.all_eq_true] at hs
        exact forall_mem_cons (alphaChar_notWs hs.1)
          (fun c hc => schemeTailChar_notWs (hs.2 c hc))
    · intro c hc
      have h3 : jstr "://" = [':', '/', '/'] := rfl
      rw [h3] at hc
      rcases List.mem_cons.mp hc with hc | hc
      · subst hc; decide
      · rcases List.mem_cons.mp hc with hc | hc
        · subst hc; decide
        · rcases List.mem_cons.mp hc with hc | hc
          · subst hc; decide
          · exact absurd hc (List.not_mem_nil c)
  have htrim : jsTrim (scheme ++ jstr "://" ++ host) =
      scheme ++ jstr "://" ++ host := jsTrim_eq_self_of_no_ws _ hws
  have hparse : parseFSUrl (scheme ++ jstr "://" ++ host) =
      .ok { schema := lowerStr scheme,
            hostname := if host.isEmpty then none else some host,
            port := if portF.isEmpty then none else parseIntJS portF,
            username := none, password := none,
            path := if ((jstr "/" : JStr).drop 1).isEmpty then none
              else some ((jstr "/" : JStr).drop 1),
            segments := (jsSplit '/' ((jstr "/" : JStr).drop 1)).filter
              (fun s => !s.isEmpty),
            params := collapseParams (urlSearchParamsPairs []),
            raw := scheme ++ jstr "://" ++ host } := by
    unfold parseFSUrl parseFSUrlWith
    rw [if_neg (by rw [isEmpty_false_of_ne_nil hne]; simp)]
    simp only [htrim]
    rw [schemeSplit_append scheme host hs]
    simp only
    rw [hstrict]
    simp only
    exact strictBuild_compute _ _ _ _ _ _
  exact ⟨_, hparse, rfl⟩

/-- C7 counterexample input: not empty, not whitespace-only, carrying a
well-formed `scheme://` prefix — yet `parseFSUrl` throws `URIError`
from `decodeURIComponent` (malformed percent-escape in the credentials,
huge numeric host forcing the fallback path), not a `ParseError`, and
returns no `ParsedDestination`. -/
theorem parseFSUrl_uriError_counterexample :
    parseFSUrl (jstr "x://a%zz@999999999999") = .error .uriError ∧
    jstr "x://a%zz@999999999999" ≠ [] ∧
    jsTrim (jstr "x://a%zz@999999999999") ≠ [] ∧
    schemeSplit (jsTrim (jstr "x://a%zz@999999999999")) ≠ none := by
  refine ⟨by decide, by decide, by decide, by decide⟩

/-- C7 (amended): `parseFSUrl` fails with a `ParseError` exactly when
the input is empty, whitespace-only, or lacks a `scheme://` prefix
matching `^[a-zA-Z][a-zA-Z0-9+.-]*://` after trimming; every other
input either returns a `ParsedDestination` or throws a `URIError` when
a credentials field contains a malformed percent-escape; in particular
a bare `scheme://host` with no path succeeds with `segments = []`. -/
theorem parseFSUrl_failure_modes :
    (∀ raw, (∃ m u, parseFSUrl raw = .error (.parseError m u)) ↔
      (raw = [] ∨ jsTrim raw = [] ∨ schemeSplit (jsTrim raw) = none)) ∧
    (∀ raw, (∃ r, parseFSUrl raw = .ok r) ∨
      (∃ m u, parseFSUrl raw = .error (.parseError m u)) ∨
      parseFSUrl raw = .error .uriError) ∧
    (∀ scheme host, isSchemeName scheme = true → isHostToken host = true →
      ∃ r, parseFSUrl (scheme ++ jstr "://" ++ host) = .ok r ∧
        r.segments = []) := by
  refine ⟨fun raw => parseFSUrlWith_parseError_iff urlStrictModel raw,
    fun raw => ?_, parseFSUrl_bare_host⟩
  cases h : parseFSUrl raw with
  | ok r => exact Or.inl ⟨r, rfl⟩
  | error e =>
    rcases parseFSUrlWith_err urlStrictModel raw e h with ⟨m, u, he⟩ | he
    · exact Or.inr (Or.inl ⟨m, u, by rw [← he]⟩)
    · exact Or.inr (Or.inr (by rw [← he]))

/-- C7 witness: the amended-claim conjuncts at concrete inputs. -/
theorem parseFSUrl_failure_modes_witness :
    ((∃ m u, parseFSUrl (jstr "   ") = .error (.parseError m u)) ↔
      (jstr "   " = [] ∨ jsTrim (jstr "   ") = [] ∨
        schemeSplit (jsTrim (jstr "   ")) = none)) ∧
    (isSchemeName (jstr "x") = true ∧ isHostToken (jstr "h") = true ∧
      ∃ r, parseFSUrl (jstr "x" ++ jstr "://" ++ jstr "h") = .ok r ∧
        r.segments = []) :=
  ⟨parseFSUrl_failure_modes.1 (jstr "   "),
   ⟨by decide, by decide,
    parseFSUrl_failure_modes.2.2 (jstr "x") (jstr "h") (by decide) (by decide)⟩⟩
